import Mathlib

/-!
Verification of the GTID interval algebra, GTID set codecs, binlog event
decoding helpers and connection-pool limit clamping of the go-mysql
repository, via a shallow embedding of the Go sources into Lean.

Conventions of the embedding:
* Go `int64` values are modelled as `Int`; where Go arithmetic can wrap,
  the wrap is made explicit with `wrap64`.  Go byte slices are `List Nat`
  (each entry `< 256` in well-formed data) and Go strings are `List Char`.
* Go maps (`map[string]*UUIDSet`) are modelled as association lists whose
  order stands for the (irrelevant) iteration order; `AddSet` inserts at
  the end, updates and deletes touch every entry with the key, which
  coincides with the Go map for the unique-key states reachable here.
* `sort.Sort` sorts by a `Less` relation whose incomparable elements are
  equal, so the sorted permutation is unique; we use `List.insertionSort`
  with the reflexive closure of that relation, which yields the same list.
-/

namespace mysql

/-- The half-open GTID interval `[start, stop)` of mysql/uuid.go. -/
structure Interval where
  start : Int
  stop : Int
deriving DecidableEq, Repr

namespace Interval

/-- Reflexive closure of `IntervalSlice.Less` (lexicographic on `(Start, Stop)`). -/
def lexLe (a b : Interval) : Prop :=
  a.start < b.start ∨ (a.start = b.start ∧ a.stop ≤ b.stop)

instance : DecidableRel lexLe := fun a b =>
  inferInstanceAs (Decidable (a.start < b.start ∨ (a.start = b.start ∧ a.stop ≤ b.stop)))

instance : IsTotal Interval lexLe := by
  constructor
  intro a b
  rcases lt_trichotomy a.start b.start with h | h | h
  · exact Or.inl (Or.inl h)
  · rcases le_total a.stop b.stop with h' | h'
    · exact Or.inl (Or.inr ⟨h, h'⟩)
    · exact Or.inr (Or.inr ⟨h.symm, h'⟩)
  · exact Or.inr (Or.inl h)

instance : IsTrans Interval lexLe := by
  constructor
  intro a b c hab hbc
  rcases hab with h | ⟨h, h'⟩ <;> rcases hbc with g | ⟨g, g'⟩
  · exact Or.inl (h.trans g)
  · exact Or.inl (g ▸ h)
  · exact Or.inl (h ▸ g)
  · exact Or.inr ⟨h.trans g, h'.trans g'⟩

/-- Strictly-separated intervals: `a` ends strictly before `b` begins. -/
def gapped (a b : Interval) : Prop := a.stop < b.start

instance : DecidableRel gapped := fun a b =>
  inferInstanceAs (Decidable (a.stop < b.start))

/-- Weak validity: the interval does not end before it starts.  (Valid
intervals satisfy the strict form `start < stop`.) -/
def wv (a : Interval) : Prop := a.start ≤ a.stop

instance : DecidablePred wv := fun a =>
  inferInstanceAs (Decidable (a.start ≤ a.stop))

end Interval

/-- An interval slice is a list of intervals (Go `IntervalSlice`). -/
abbrev IntervalSlice := List Interval

/-- Membership of a point in an interval. -/
def Interval.memI (p : Int) (i : Interval) : Prop := i.start ≤ p ∧ p < i.stop

instance (p : Int) : DecidablePred (Interval.memI p) := fun i =>
  inferInstanceAs (Decidable (i.start ≤ p ∧ p < i.stop))

/-- Membership of a point in the set of points covered by a slice. -/
def memP (p : Int) (s : IntervalSlice) : Prop := ∃ i ∈ s, Interval.memI p i

instance (p : Int) (s : IntervalSlice) : Decidable (memP p s) :=
  inferInstanceAs (Decidable (∃ i ∈ s, Interval.memI p i))

namespace IntervalSlice

/-- The result of Go `sort.Sort(s)` on an `IntervalSlice`: the unique
permutation sorted by the `Less` relation of uuid.go (lexicographic on
`(Start, Stop)`). -/
def sortSlice (s : IntervalSlice) : IntervalSlice := List.insertionSort Interval.lexLe s

/-- The merge loop of `IntervalSlice.Normalize`: `last` is the interval
currently at the end of the accumulator `n`; an input interval starting
after `last.Stop` is appended, otherwise it is merged into `last` with the
larger `Stop`. -/
def normMerge : Interval → List Interval → List Interval
  | last, [] => [last]
  | last, x :: xs =>
    if last.stop < x.start then last :: normMerge x xs
    else normMerge ⟨last.start, max last.stop x.stop⟩ xs

/-- Go `IntervalSlice.Normalize`: sort, then merge overlapping or touching
neighbours. -/
def Normalize (s : IntervalSlice) : IntervalSlice :=
  match sortSlice s with
  | [] => []
  | x :: xs => normMerge x xs

/-- A normalized slice: every interval is valid and consecutive intervals
are strictly separated (sorted, pairwise disjoint, nothing left to merge). -/
def IsNormalized (s : IntervalSlice) : Prop :=
  (∀ i ∈ s, i.start < i.stop) ∧ List.Chain' Interval.gapped s

/-- Executable check for `IsNormalized` (used for deciding it on concrete
slices). -/
def isNormB : IntervalSlice → Bool
  | [] => true
  | [i] => decide (i.start < i.stop)
  | i :: j :: rest =>
    decide (i.start < i.stop) && decide (i.stop < j.start) && isNormB (j :: rest)

theorem isNormB_iff : ∀ s : IntervalSlice, isNormB s = true ↔ IsNormalized s := by
  intro s
  induction s with
  | nil => simp [isNormB, IsNormalized]
  | cons i rest ih =>
    cases rest with
    | nil => simp [isNormB, IsNormalized]
    | cons j rest' =>
      show (decide (i.start < i.stop) && decide (i.stop < j.start)
          && isNormB (j :: rest')) = true ↔ _
      simp only [Bool.and_eq_true, decide_eq_true_eq]
      rw [ih]
      unfold IsNormalized
      constructor
      · rintro ⟨⟨h1, h2⟩, h3, h4⟩
        refine ⟨?_, ?_⟩
        · intro k hk
          rcases List.mem_cons.mp hk with rfl | hk
          · exact h1
          · exact h3 k hk
        · rw [List.chain'_cons]
          exact ⟨h2, h4⟩
      · rintro ⟨hv, hc⟩
        rw [List.chain'_cons] at hc
        exact ⟨⟨hv i (by simp), hc.1⟩, fun k hk => hv k (by simp [hk]), hc.2⟩

instance (s : IntervalSlice) : Decidable (IsNormalized s) :=
  decidable_of_iff _ (isNormB_iff s)

theorem normMerge_head_start (last : Interval) (xs : List Interval) :
    ∃ st rest, normMerge last xs = Interval.mk last.start st :: rest := by
  induction xs generalizing last with
  | nil => exact ⟨last.stop, [], rfl⟩
  | cons x xs ih =>
    by_cases h : last.stop < x.start
    · exact ⟨last.stop, normMerge x xs, by simp [normMerge, h]⟩
    · obtain ⟨st, rest, hr⟩ := ih ⟨last.start, max last.stop x.stop⟩
      exact ⟨st, rest, by simp [normMerge, h]; exact hr⟩

theorem chain'_normMerge (last : Interval) (xs : List Interval) :
    List.Chain' Interval.gapped (normMerge last xs) := by
  induction xs generalizing last with
  | nil => simp [normMerge]
  | cons x xs ih =>
    by_cases h : last.stop < x.start
    · obtain ⟨st, rest, hr⟩ := normMerge_head_start x xs
      simp only [normMerge, if_pos h]
      rw [hr]
      refine List.Chain'.cons h ?_
      rw [← hr]; exact ih x
    · simp only [normMerge, if_neg h]
      exact ih _

theorem chain'_Normalize (s : IntervalSlice) :
    List.Chain' Interval.gapped (Normalize s) := by
  unfold Normalize
  cases sortSlice s with
  | nil => simp
  | cons x xs => exact chain'_normMerge x xs

/-- Every interval produced by the merge loop keeps the `start` of some
input interval and enlarges its `stop` to the `stop` of some input. -/
theorem normMerge_elem_char (last : Interval) (xs : List Interval) :
    ∀ e ∈ normMerge last xs,
      ∃ y ∈ last :: xs, e.start = y.start ∧ y.stop ≤ e.stop ∧
        ∃ z ∈ last :: xs, e.stop = z.stop := by
  induction xs generalizing last with
  | nil =>
    intro e he
    simp [normMerge] at he
    subst he
    exact ⟨e, by simp, rfl, le_refl _, e, by simp, rfl⟩
  | cons x xs ih =>
    intro e he
    by_cases h : last.stop < x.start
    · simp only [normMerge, if_pos h, List.mem_cons] at he
      rcases he with rfl | he
      · exact ⟨e, by simp, rfl, le_refl _, e, by simp, rfl⟩
      · obtain ⟨y, hy, h1, h2, z, hz, h3⟩ := ih x e he
        exact ⟨y, by simp_all, h1, h2, z, by simp_all, h3⟩
    · simp only [normMerge, if_neg h] at he
      obtain ⟨y, hy, h1, h2, z, hz, h3⟩ := ih ⟨last.start, max last.stop x.stop⟩ e he
      rcases List.mem_cons.mp hy with rfl | hy
      · refine ⟨last, by simp, h1, le_trans (le_max_left _ _) h2, ?_⟩
        rcases List.mem_cons.mp hz with rfl | hz
        · rcases max_choice last.stop x.stop with hm | hm
          · exact ⟨last, by simp, by simp_all⟩
          · exact ⟨x, by simp, by simp_all⟩
        · exact ⟨z, by simp_all, h3⟩
      · refine ⟨y, by simp_all, h1, h2, ?_⟩
        rcases List.mem_cons.mp hz with rfl | hz
        · rcases max_choice last.stop x.stop with hm | hm
          · exact ⟨last, by simp, by simp_all⟩
          · exact ⟨x, by simp, by simp_all⟩
        · exact ⟨z, by simp_all, h3⟩

theorem sorted_normMerge (last : Interval) (xs : List Interval)
    (h : List.Pairwise Interval.lexLe (last :: xs)) :
    List.Sorted Interval.lexLe (normMerge last xs) := by
  induction xs generalizing last with
  | nil => simp [normMerge, List.Sorted]
  | cons x xs ih =>
    rw [List.pairwise_cons] at h
    obtain ⟨hlast, hx⟩ := h
    by_cases hgap : last.stop < x.start
    · simp only [normMerge, if_pos hgap]
      refine List.sorted_cons.mpr ⟨?_, ih x hx⟩
      intro e he
      obtain ⟨y, hy, h1, h2, _⟩ := normMerge_elem_char x xs e he
      have hly : Interval.lexLe last y := hlast y hy
      rcases hly with h' | ⟨h', h''⟩
      · exact Or.inl (h1 ▸ h')
      · exact Or.inr ⟨h' ▸ h1.symm ▸ rfl, le_trans h'' h2⟩
    · simp only [normMerge, if_neg hgap]
      apply ih
      rw [List.pairwise_cons] at hx ⊢
      refine ⟨?_, hx.2⟩
      intro w hw
      have h1 : Interval.lexLe last w := hlast w (by simp [hw])
      have h2 : Interval.lexLe x w := hx.1 w hw
      have h3 : Interval.lexLe last x := hlast x (by simp)
      rcases h1 with h' | ⟨h', h''⟩
      · exact Or.inl h'
      · refine Or.inr ⟨h', ?_⟩
        simp only [max_le_iff]
        refine ⟨h'', ?_⟩
        rcases h2 with g | ⟨g, g'⟩
        · exfalso
          rcases h3 with f | ⟨f, f'⟩ <;> omega
        · exact g'
      -- `last.start = w.start`; `x` sits between them so its stop is bounded too

theorem sorted_Normalize (s : IntervalSlice) :
    List.Sorted Interval.lexLe (Normalize s) := by
  unfold Normalize
  have hs : List.Sorted Interval.lexLe (sortSlice s) := List.sorted_insertionSort _ s
  cases h : sortSlice s with
  | nil => simp
  | cons x xs =>
    apply sorted_normMerge
    rw [h] at hs
    exact hs

theorem normMerge_of_chain' (last : Interval) (xs : List Interval)
    (h : List.Chain' Interval.gapped (last :: xs)) :
    normMerge last xs = last :: xs := by
  induction xs generalizing last with
  | nil => simp [normMerge]
  | cons x xs ih =>
    rw [List.chain'_cons] at h
    have h1 : last.stop < x.start := h.1
    simp only [normMerge, if_pos h1]
    rw [ih x h.2]

/-- A slice that is already sorted and strictly separated is a fixed point
of `Normalize`. -/
theorem Normalize_eq_self (l : IntervalSlice)
    (hs : List.Sorted Interval.lexLe l) (hc : List.Chain' Interval.gapped l) :
    Normalize l = l := by
  unfold Normalize sortSlice
  rw [hs.insertionSort_eq]
  cases l with
  | nil => rfl
  | cons x xs => exact normMerge_of_chain' x xs hc

theorem Normalize_idem (s : IntervalSlice) :
    Normalize (Normalize s) = Normalize s :=
  Normalize_eq_self _ (sorted_Normalize s) (chain'_Normalize s)

theorem memP_normMerge (p : Int) (last : Interval) (xs : List Interval)
    (h : List.Pairwise (fun a b : Interval => a.start ≤ b.start) (last :: xs)) :
    (memP p (normMerge last xs) ↔ Interval.memI p last ∨ memP p xs) := by
  induction xs generalizing last with
  | nil => simp [normMerge, memP]
  | cons x xs ih =>
    rw [List.pairwise_cons] at h
    obtain ⟨hlast, hx⟩ := h
    by_cases hgap : last.stop < x.start
    · simp only [normMerge, if_pos hgap]
      have := ih x hx
      constructor
      · intro hm
        rcases hm with ⟨i, hi, hmem⟩
        rcases List.mem_cons.mp hi with rfl | hi
        · exact Or.inl hmem
        · rcases (this.mp ⟨i, hi, hmem⟩) with h' | h'
          · exact Or.inr ⟨x, by simp, h'⟩
          · obtain ⟨j, hj, hjm⟩ := h'
            exact Or.inr ⟨j, by simp [hj], hjm⟩
      · intro hm
        rcases hm with h' | ⟨j, hj, hjm⟩
        · exact ⟨last, by simp, h'⟩
        · rcases List.mem_cons.mp hj with rfl | hj
          · obtain ⟨i, hi, him⟩ := this.mpr (Or.inl hjm)
            exact ⟨i, by simp [hi], him⟩
          · obtain ⟨i, hi, him⟩ := this.mpr (Or.inr ⟨j, hj, hjm⟩)
            exact ⟨i, by simp [hi], him⟩
    · simp only [normMerge, if_neg hgap]
      rw [List.pairwise_cons] at hx
      have hpw : List.Pairwise (fun a b : Interval => a.start ≤ b.start)
          (Interval.mk last.start (max last.stop x.stop) :: xs) := by
      -- the merged interval keeps `last.start`, still below every later start
        rw [List.pairwise_cons]
        exact ⟨fun w hw => hlast w (by simp [hw]), hx.2⟩
      rw [ih _ hpw]
      have hsx : last.start ≤ x.start := hlast x (by simp)
      have hxs : x.start ≤ last.stop := by omega
      constructor
      · intro hm
        rcases hm with hmerged | h'
        · unfold Interval.memI at hmerged ⊢
          simp only at hmerged
          rcases le_total last.stop x.stop with hmx | hmx
          · rw [max_eq_right hmx] at hmerged
            by_cases hp : p < last.stop
            · exact Or.inl ⟨hmerged.1, hp⟩
            · exact Or.inr ⟨x, by simp, by omega, hmerged.2⟩
          · rw [max_eq_left hmx] at hmerged
            exact Or.inl ⟨hmerged.1, hmerged.2⟩
        · obtain ⟨j, hj, hjm⟩ := h'
          exact Or.inr ⟨j, by simp [hj], hjm⟩
      · intro hm
        unfold Interval.memI
        rcases hm with h' | ⟨j, hj, hjm⟩
        · exact Or.inl ⟨h'.1, lt_of_lt_of_le h'.2 (le_max_left _ _)⟩
        · rcases List.mem_cons.mp hj with rfl | hj
          · refine Or.inl ⟨?_, lt_of_lt_of_le hjm.2 (le_max_right _ _)⟩
            have := hjm.1
            show last.start ≤ p
            omega
          · exact Or.inr ⟨j, hj, hjm⟩

theorem memP_perm {p : Int} {s t : IntervalSlice} (h : s.Perm t) :
    memP p s ↔ memP p t := by
  unfold memP
  constructor <;> intro ⟨i, hi, him⟩
  · exact ⟨i, h.mem_iff.mp hi, him⟩
  · exact ⟨i, h.mem_iff.mpr hi, him⟩

/-- Point soundness of `Normalize`: it covers exactly the points of the
input. -/
theorem memP_Normalize (p : Int) (s : IntervalSlice) :
    memP p (Normalize s) ↔ memP p s := by
  have hperm : (sortSlice s).Perm s := List.perm_insertionSort _ s
  have hs : List.Sorted Interval.lexLe (sortSlice s) := List.sorted_insertionSort _ s
  unfold Normalize
  cases h : sortSlice s with
  | nil =>
    rw [h] at hperm
    exact memP_perm hperm
  | cons x xs =>
    rw [h] at hperm hs
    show memP p (normMerge x xs) ↔ memP p s
    rw [← memP_perm hperm]
    have hpw : List.Pairwise (fun a b : Interval => a.start ≤ b.start) (x :: xs) := by
      refine hs.imp ?_
      intro a b hab
      rcases hab with h' | ⟨h', _⟩
      · exact le_of_lt h'
      · exact le_of_eq h'
    rw [memP_normMerge p x xs hpw]
    unfold memP
    simp

end IntervalSlice

/-- Go `math.MaxInt64`. -/
def maxInt64 : Int := 9223372036854775807

namespace IntervalSlice

/-- Go `IntervalSlice.Contain`: cursor scan deciding whether every interval
of `sub` lies inside an interval of `s`.  The cursor `j` over `s` survives
across `sub` intervals; it is represented by passing the remaining suffix
of `s` to the recursive call. -/
def Contain (s sub : IntervalSlice) : Bool :=
  match sub with
  | [] => true
  | x :: xs =>
    match s.dropWhile (fun t => decide (t.stop < x.start)) with
    | [] => false
    | t :: ts =>
      if x.start < t.start ∨ t.stop < x.stop then false
      else Contain (t :: ts) xs

/-- The loop of `UUIDSet.MinusInterval`: `minuend` is the mutable local of
the Go code (zero value `{0,0}` initially; reloaded from the current
interval of the minuend slice `cur` whenever its `Stop` differs), `cur` is
the suffix of the minuend slice from cursor `i`, `sub` the suffix of the
(normalized) subtrahend from cursor `j`.  When `sub` is exhausted the Go
code compares against the sentinel `{MaxInt64, MaxInt64}`; the comparison
`minuend.Stop <= MaxInt64` always holds for `int64` data, so the `else`
arm of the sentinel branch (on which the Go loop would not terminate) is
unreachable and modelled as `[]`. -/
def minusGo (minuend : Interval) (cur sub : List Interval) : List Interval :=
  match cur with
  | [] => []
  | c :: cs =>
    let m := if minuend.stop ≠ c.stop then c else minuend
    match sub with
    | [] =>
      if m.stop ≤ maxInt64 then m :: minusGo m cs []
      else []
    | t :: ts =>
      if m.stop ≤ t.start then m :: minusGo m cs (t :: ts)
      else if t.stop ≤ m.start then minusGo m (c :: cs) ts
      else if m.start < t.start ∧ m.stop ≤ t.stop then
        ⟨m.start, t.start⟩ :: minusGo m cs (t :: ts)
      else if t.start ≤ m.start ∧ t.stop < m.stop then
        minusGo ⟨t.stop, m.stop⟩ (c :: cs) ts
      else if t.start ≤ m.start ∧ m.stop ≤ t.stop then
        minusGo m cs (t :: ts)
      else
        ⟨m.start, t.start⟩ :: minusGo ⟨t.stop, m.stop⟩ (c :: cs) ts
  termination_by cur.length + sub.length

end IntervalSlice

/-- Go `UUIDSet`: a source UUID (16 raw bytes) with its interval set. -/
structure UUIDSet where
  SID : List Nat
  Intervals : IntervalSlice
deriving DecidableEq, Repr

/-- Go `UUIDSet.MinusInterval`: normalize the subtrahend, run the
two-cursor subtraction loop, normalize the result. -/
def UUIDSet.MinusInterval (s : UUIDSet) (sub : IntervalSlice) : UUIDSet :=
  ⟨s.SID,
    IntervalSlice.Normalize
      (IntervalSlice.minusGo ⟨0, 0⟩ s.Intervals (IntervalSlice.Normalize sub))⟩

example : IntervalSlice.Normalize [⟨1, 3⟩, ⟨2, 5⟩, ⟨7, 8⟩, ⟨8, 9⟩] = [⟨1, 5⟩, ⟨7, 9⟩] := by
  decide

example : IntervalSlice.Contain [⟨1, 101⟩] [⟨10, 21⟩] = true := by decide

example : IntervalSlice.Contain [⟨1, 101⟩] [⟨50, 201⟩] = false := by decide

namespace IntervalSlice

theorem isNorm_tail {c : Interval} {cs : List Interval}
    (h : IsNormalized (c :: cs)) : IsNormalized cs :=
  ⟨fun i hi => h.1 i (List.mem_cons_of_mem _ hi), (List.chain'_cons'.mp h.2).2⟩

theorem isNorm_head_lt {c : Interval} {cs : List Interval}
    (h : IsNormalized (c :: cs)) : ∀ w ∈ cs, c.stop < w.start := by
  induction cs generalizing c with
  | nil => intro w hw; cases hw
  | cons d ds ih =>
    intro w hw
    have hcd : c.stop < d.start := (List.chain'_cons.mp h.2).1
    rcases List.mem_cons.mp hw with rfl | hw
    · exact hcd
    · have hd : d.start < d.stop := (isNorm_tail h).1 d (by simp)
      have := ih (isNorm_tail h) w hw
      omega

theorem minusGo_nil_cur (minuend : Interval) (sub : List Interval) :
    minusGo minuend [] sub = [] := by
  rw [minusGo.eq_def]

theorem minusGo_sentinel (minuend c : Interval) (cs : List Interval)
    (h : (if minuend.stop ≠ c.stop then c else minuend).stop ≤ maxInt64) :
    minusGo minuend (c :: cs) [] =
      (if minuend.stop ≠ c.stop then c else minuend)
        :: minusGo (if minuend.stop ≠ c.stop then c else minuend) cs [] := by
  rw [minusGo.eq_def]
  simp only [if_pos h]

theorem minusGo_before (minuend c t : Interval) (cs ts : List Interval)
    (h : (if minuend.stop ≠ c.stop then c else minuend).stop ≤ t.start) :
    minusGo minuend (c :: cs) (t :: ts) =
      (if minuend.stop ≠ c.stop then c else minuend)
        :: minusGo (if minuend.stop ≠ c.stop then c else minuend) cs (t :: ts) := by
  rw [minusGo.eq_def]
  simp only [if_pos h]

theorem minusGo_after (minuend c t : Interval) (cs ts : List Interval)
    (h1 : ¬ (if minuend.stop ≠ c.stop then c else minuend).stop ≤ t.start)
    (h2 : t.stop ≤ (if minuend.stop ≠ c.stop then c else minuend).start) :
    minusGo minuend (c :: cs) (t :: ts) =
      minusGo (if minuend.stop ≠ c.stop then c else minuend) (c :: cs) ts := by
  rw [minusGo.eq_def]
  simp only [if_neg h1, if_pos h2]

theorem minusGo_left (minuend c t : Interval) (cs ts : List Interval)
    (h1 : ¬ (if minuend.stop ≠ c.stop then c else minuend).stop ≤ t.start)
    (h2 : ¬ t.stop ≤ (if minuend.stop ≠ c.stop then c else minuend).start)
    (h3 : (if minuend.stop ≠ c.stop then c else minuend).start < t.start
        ∧ (if minuend.stop ≠ c.stop then c else minuend).stop ≤ t.stop) :
    minusGo minuend (c :: cs) (t :: ts) =
      Interval.mk (if minuend.stop ≠ c.stop then c else minuend).start t.start
        :: minusGo (if minuend.stop ≠ c.stop then c else minuend) cs (t :: ts) := by
  rw [minusGo.eq_def]
  simp only [if_neg h1, if_neg h2, if_pos h3]

theorem minusGo_right (minuend c t : Interval) (cs ts : List Interval)
    (h1 : ¬ (if minuend.stop ≠ c.stop then c else minuend).stop ≤ t.start)
    (h2 : ¬ t.stop ≤ (if minuend.stop ≠ c.stop then c else minuend).start)
    (h3 : ¬ ((if minuend.stop ≠ c.stop then c else minuend).start < t.start
        ∧ (if minuend.stop ≠ c.stop then c else minuend).stop ≤ t.stop))
    (h4 : t.start ≤ (if minuend.stop ≠ c.stop then c else minuend).start
        ∧ t.stop < (if minuend.stop ≠ c.stop then c else minuend).stop) :
    minusGo minuend (c :: cs) (t :: ts) =
      minusGo (Interval.mk t.stop (if minuend.stop ≠ c.stop then c else minuend).stop)
        (c :: cs) ts := by
  rw [minusGo.eq_def]
  simp only [if_neg h1, if_neg h2, if_neg h3, if_pos h4]

theorem minusGo_covered (minuend c t : Interval) (cs ts : List Interval)
    (h1 : ¬ (if minuend.stop ≠ c.stop then c else minuend).stop ≤ t.start)
    (h2 : ¬ t.stop ≤ (if minuend.stop ≠ c.stop then c else minuend).start)
    (h3 : ¬ ((if minuend.stop ≠ c.stop then c else minuend).start < t.start
        ∧ (if minuend.stop ≠ c.stop then c else minuend).stop ≤ t.stop))
    (h4 : ¬ (t.start ≤ (if minuend.stop ≠ c.stop then c else minuend).start
        ∧ t.stop < (if minuend.stop ≠ c.stop then c else minuend).stop))
    (h5 : t.start ≤ (if minuend.stop ≠ c.stop then c else minuend).start
        ∧ (if minuend.stop ≠ c.stop then c else minuend).stop ≤ t.stop) :
    minusGo minuend (c :: cs) (t :: ts) =
      minusGo (if minuend.stop ≠ c.stop then c else minuend) cs (t :: ts) := by
  rw [minusGo.eq_def]
  simp only [if_neg h1, if_neg h2, if_neg h3, if_neg h4, if_pos h5]

theorem minusGo_split (minuend c t : Interval) (cs ts : List Interval)
    (h1 : ¬ (if minuend.stop ≠ c.stop then c else minuend).stop ≤ t.start)
    (h2 : ¬ t.stop ≤ (if minuend.stop ≠ c.stop then c else minuend).start)
    (h3 : ¬ ((if minuend.stop ≠ c.stop then c else minuend).start < t.start
        ∧ (if minuend.stop ≠ c.stop then c else minuend).stop ≤ t.stop))
    (h4 : ¬ (t.start ≤ (if minuend.stop ≠ c.stop then c else minuend).start
        ∧ t.stop < (if minuend.stop ≠ c.stop then c else minuend).stop))
    (h5 : ¬ (t.start ≤ (if minuend.stop ≠ c.stop then c else minuend).start
        ∧ (if minuend.stop ≠ c.stop then c else minuend).stop ≤ t.stop)) :
    minusGo minuend (c :: cs) (t :: ts) =
      Interval.mk (if minuend.stop ≠ c.stop then c else minuend).start t.start
        :: minusGo
          (Interval.mk t.stop (if minuend.stop ≠ c.stop then c else minuend).stop)
          (c :: cs) ts := by
  rw [minusGo.eq_def]
  simp only [if_neg h1, if_neg h2, if_neg h3, if_neg h4, if_neg h5]

theorem reload_key (minuend c : Interval)
    (hwv : minuend.start ≤ minuend.stop) (hv : c.start < c.stop)
    (hinv : minuend.stop = c.stop → c.start ≤ minuend.start) :
    (if minuend.stop ≠ c.stop then c else minuend).stop = c.stop
    ∧ c.start ≤ (if minuend.stop ≠ c.stop then c else minuend).start
    ∧ (if minuend.stop ≠ c.stop then c else minuend).start
        ≤ (if minuend.stop ≠ c.stop then c else minuend).stop
    ∧ (if minuend.stop = c.stop then minuend.start else c.start)
        ≤ (if minuend.stop ≠ c.stop then c else minuend).start := by
  by_cases h : minuend.stop = c.stop
  · have := hinv h
    simp [h]
    omega
  · simp [h]
    omega

/-- Structural invariants of the subtraction loop when the minuend slice is
normalized and the subtrahend intervals are valid: every produced interval
is weakly valid, sits inside one interval of `cur`, starts no earlier than
the reloaded minuend; and the output is strictly separated. -/
theorem minusGo_spec (minuend : Interval) (cur sub : List Interval)
    (hnorm : IsNormalized cur)
    (hsubv : ∀ t ∈ sub, t.start < t.stop)
    (hwv : minuend.start ≤ minuend.stop)
    (hinv : ∀ c cs, cur = c :: cs → minuend.stop = c.stop → c.start ≤ minuend.start) :
    (∀ e ∈ minusGo minuend cur sub,
        e.start ≤ e.stop
      ∧ (∃ h' ∈ cur, h'.start ≤ e.start ∧ e.stop ≤ h'.stop)
      ∧ (∀ c cs, cur = c :: cs →
          (if minuend.stop = c.stop then minuend.start else c.start) ≤ e.start))
    ∧ List.Chain' Interval.gapped (minusGo minuend cur sub) := by
  induction minuend, cur, sub using minusGo.induct with
  | case1 minuend sub =>
    rw [minusGo_nil_cur]
    exact ⟨fun e he => absurd he (List.not_mem_nil e), List.chain'_nil⟩
  | case2 minuend c cs m hle ih =>
    have hmdef : m = if minuend.stop ≠ c.stop then c else minuend := rfl
    obtain ⟨hK1, hK2, hK3, hK4⟩ :=
      reload_key minuend c hwv (hnorm.1 c (by simp)) (hinv c cs rfl)
    rw [← hmdef] at hK1 hK2 hK3 hK4
    rw [minusGo_sentinel minuend c cs (hmdef ▸ hle), ← hmdef]
    have hinvrec : ∀ c2 cs2, cs = c2 :: cs2 → m.stop = c2.stop → c2.start ≤ m.start := by
      intro c2 cs2 hcs hstop
      exfalso
      have hg1 : c.stop < c2.start := isNorm_head_lt hnorm c2 (by rw [hcs]; simp)
      have hg2 : c2.start < c2.stop := (isNorm_tail hnorm).1 c2 (by rw [hcs]; simp)
      omega
    have hrec := ih (isNorm_tail hnorm) (by simp) hK3 hinvrec
    have hlow : ∀ e ∈ minusGo m cs [], c.stop < e.start := by
      intro e he
      cases cs with
      | nil => rw [minusGo_nil_cur] at he; cases he
      | cons c2 cs2 =>
        have hg1 : c.stop < c2.start := isNorm_head_lt hnorm c2 (by simp)
        have := (hrec.1 e he).2.2 c2 cs2 rfl
        by_cases h : m.stop = c2.stop
        · have hg2 : c2.start < c2.stop := (isNorm_tail hnorm).1 c2 (by simp)
          omega
        · simp [h] at this
          omega
    constructor
    · intro e he
      rcases List.mem_cons.mp he with rfl | he
      · exact ⟨hK3, ⟨c, by simp, hK2, le_of_eq hK1⟩, fun c' cs' heq => by
          injection heq with heq1 heq2
          subst heq1
          exact hK4⟩
      · obtain ⟨hwv', ⟨h', hh', hcont⟩, _⟩ := hrec.1 e he
        refine ⟨hwv', ⟨h', by simp [hh'], hcont⟩, ?_⟩
        intro c' cs' heq
        injection heq with heq1 heq2
        subst heq1
        have := hlow e he
        omega
    · rw [List.chain'_cons']
      refine ⟨?_, hrec.2⟩
      intro b hb
      have := hlow b (List.mem_of_mem_head? hb)
      show m.stop < b.start
      omega
  | case3 minuend c cs m hle =>
    have hmdef : m = if minuend.stop ≠ c.stop then c else minuend := rfl
    rw [minusGo.eq_def]
    simp only [← hmdef, if_neg hle]
    exact ⟨fun e he => absurd he (List.not_mem_nil e), List.chain'_nil⟩
  | case4 minuend c cs m t ts h1 ih =>
    have hmdef : m = if minuend.stop ≠ c.stop then c else minuend := rfl
    obtain ⟨hK1, hK2, hK3, hK4⟩ :=
      reload_key minuend c hwv (hnorm.1 c (by simp)) (hinv c cs rfl)
    rw [← hmdef] at hK1 hK2 hK3 hK4
    rw [minusGo_before minuend c t cs ts (hmdef ▸ h1), ← hmdef]
    have hinvrec : ∀ c2 cs2, cs = c2 :: cs2 → m.stop = c2.stop → c2.start ≤ m.start := by
      intro c2 cs2 hcs hstop
      exfalso
      have hg1 : c.stop < c2.start := isNorm_head_lt hnorm c2 (by rw [hcs]; simp)
      have hg2 : c2.start < c2.stop := (isNorm_tail hnorm).1 c2 (by rw [hcs]; simp)
      omega
    have hrec := ih (isNorm_tail hnorm) hsubv hK3 hinvrec
    have hlow : ∀ e ∈ minusGo m cs (t :: ts), c.stop < e.start := by
      intro e he
      cases cs with
      | nil => rw [minusGo_nil_cur] at he; cases he
      | cons c2 cs2 =>
        have hg1 : c.stop < c2.start := isNorm_head_lt hnorm c2 (by simp)
        have := (hrec.1 e he).2.2 c2 cs2 rfl
        by_cases h : m.stop = c2.stop
        · have hg2 : c2.start < c2.stop := (isNorm_tail hnorm).1 c2 (by simp)
          omega
        · simp [h] at this
          omega
    constructor
    · intro e he
      rcases List.mem_cons.mp he with rfl | he
      · exact ⟨hK3, ⟨c, by simp, hK2, le_of_eq hK1⟩, fun c' cs' heq => by
          injection heq with heq1 heq2
          subst heq1
          exact hK4⟩
      · obtain ⟨hwv', ⟨h', hh', hcont⟩, _⟩ := hrec.1 e he
        refine ⟨hwv', ⟨h', by simp [hh'], hcont⟩, ?_⟩
        intro c' cs' heq
        injection heq with heq1 heq2
        subst heq1
        have := hlow e he
        omega
    · rw [List.chain'_cons']
      refine ⟨?_, hrec.2⟩
      intro b hb
      have := hlow b (List.mem_of_mem_head? hb)
      show m.stop < b.start
      omega
  | case5 minuend c cs m t ts h1 h2 ih =>
    have hmdef : m = if minuend.stop ≠ c.stop then c else minuend := rfl
    obtain ⟨hK1, hK2, hK3, hK4⟩ :=
      reload_key minuend c hwv (hnorm.1 c (by simp)) (hinv c cs rfl)
    rw [← hmdef] at hK1 hK2 hK3 hK4
    rw [minusGo_after minuend c t cs ts (hmdef ▸ h1) (hmdef ▸ h2), ← hmdef]
    have hinvrec : ∀ c' cs', c :: cs = c' :: cs' → m.stop = c'.stop →
        c'.start ≤ m.start := by
      intro c' cs' heq hstop
      injection heq with heq1 heq2
      subst heq1
      exact hK2
    have hrec := ih hnorm (fun w hw => hsubv w (by simp [hw])) hK3 hinvrec
    constructor
    · intro e he
      obtain ⟨hwv', hhost, hlb⟩ := hrec.1 e he
      refine ⟨hwv', hhost, ?_⟩
      intro c' cs' heq
      injection heq with heq1 heq2
      subst heq1
      have hx := hlb c cs rfl
      rw [if_pos hK1] at hx
      omega
    · exact hrec.2
  | case6 minuend c cs m t ts h1 h2 h3 ih =>
    have hmdef : m = if minuend.stop ≠ c.stop then c else minuend := rfl
    obtain ⟨hK1, hK2, hK3, hK4⟩ :=
      reload_key minuend c hwv (hnorm.1 c (by simp)) (hinv c cs rfl)
    rw [← hmdef] at hK1 hK2 hK3 hK4
    rw [minusGo_left minuend c t cs ts (hmdef ▸ h1) (hmdef ▸ h2) (hmdef ▸ h3), ← hmdef]
    have hinvrec : ∀ c2 cs2, cs = c2 :: cs2 → m.stop = c2.stop → c2.start ≤ m.start := by
      intro c2 cs2 hcs hstop
      exfalso
      have hg1 : c.stop < c2.start := isNorm_head_lt hnorm c2 (by rw [hcs]; simp)
      have hg2 : c2.start < c2.stop := (isNorm_tail hnorm).1 c2 (by rw [hcs]; simp)
      omega
    have hrec := ih (isNorm_tail hnorm) hsubv hK3 hinvrec
    have hlow : ∀ e ∈ minusGo m cs (t :: ts), c.stop < e.start := by
      intro e he
      cases cs with
      | nil => rw [minusGo_nil_cur] at he; cases he
      | cons c2 cs2 =>
        have hg1 : c.stop < c2.start := isNorm_head_lt hnorm c2 (by simp)
        have := (hrec.1 e he).2.2 c2 cs2 rfl
        by_cases h : m.stop = c2.stop
        · have hg2 : c2.start < c2.stop := (isNorm_tail hnorm).1 c2 (by simp)
          omega
        · simp [h] at this
          omega
    have h1' : ¬ m.stop ≤ t.start := hmdef ▸ h1
    have h3' : m.start < t.start ∧ m.stop ≤ t.stop := hmdef ▸ h3
    constructor
    · intro e he
      rcases List.mem_cons.mp he with rfl | he
      · refine ⟨le_of_lt h3'.1, ⟨c, by simp, hK2, ?_⟩, fun c' cs' heq => by
          injection heq with heq1 heq2
          subst heq1
          exact hK4⟩
        show t.start ≤ c.stop
        omega
      · obtain ⟨hwv', ⟨h', hh', hcont⟩, _⟩ := hrec.1 e he
        refine ⟨hwv', ⟨h', by simp [hh'], hcont⟩, ?_⟩
        intro c' cs' heq
        injection heq with heq1 heq2
        subst heq1
        have := hlow e he
        omega
    · rw [List.chain'_cons']
      refine ⟨?_, hrec.2⟩
      intro b hb
      have := hlow b (List.mem_of_mem_head? hb)
      show t.start < b.start
      omega
  | case7 minuend c cs m t ts h1 h2 h3 h4 ih =>
    have hmdef : m = if minuend.stop ≠ c.stop then c else minuend := rfl
    obtain ⟨hK1, hK2, hK3, hK4⟩ :=
      reload_key minuend c hwv (hnorm.1 c (by simp)) (hinv c cs rfl)
    rw [← hmdef] at hK1 hK2 hK3 hK4
    rw [minusGo_right minuend c t cs ts (hmdef ▸ h1) (hmdef ▸ h2) (hmdef ▸ h3)
      (hmdef ▸ h4), ← hmdef]
    have h2' : ¬ t.stop ≤ m.start := hmdef ▸ h2
    have h4' : t.start ≤ m.start ∧ t.stop < m.stop := hmdef ▸ h4
    have hinvrec : ∀ c' cs', c :: cs = c' :: cs' →
        (Interval.mk t.stop m.stop).stop = c'.stop →
        c'.start ≤ (Interval.mk t.stop m.stop).start := by
      intro c' cs' heq hstop
      injection heq with heq1 heq2
      subst heq1
      show c.start ≤ t.stop
      omega
    have hrec := ih hnorm (fun w hw => hsubv w (by simp [hw]))
      (by show t.stop ≤ m.stop; omega) hinvrec
    constructor
    · intro e he
      obtain ⟨hwv', hhost, hlb⟩ := hrec.1 e he
      refine ⟨hwv', hhost, ?_⟩
      intro c' cs' heq
      injection heq with heq1 heq2
      subst heq1
      have hx := hlb c cs rfl
      have hstop : (Interval.mk t.stop m.stop).stop = c.stop := hK1
      rw [if_pos hstop] at hx
      have hts : t.stop ≤ e.start := hx
      omega
    · exact hrec.2
  | case8 minuend c cs m t ts h1 h2 h3 h4 h5 ih =>
    have hmdef : m = if minuend.stop ≠ c.stop then c else minuend := rfl
    obtain ⟨hK1, hK2, hK3, hK4⟩ :=
      reload_key minuend c hwv (hnorm.1 c (by simp)) (hinv c cs rfl)
    rw [← hmdef] at hK1 hK2 hK3 hK4
    rw [minusGo_covered minuend c t cs ts (hmdef ▸ h1) (hmdef ▸ h2) (hmdef ▸ h3)
      (hmdef ▸ h4) (hmdef ▸ h5), ← hmdef]
    have hinvrec : ∀ c2 cs2, cs = c2 :: cs2 → m.stop = c2.stop → c2.start ≤ m.start := by
      intro c2 cs2 hcs hstop
      exfalso
      have hg1 : c.stop < c2.start := isNorm_head_lt hnorm c2 (by rw [hcs]; simp)
      have hg2 : c2.start < c2.stop := (isNorm_tail hnorm).1 c2 (by rw [hcs]; simp)
      omega
    have hrec := ih (isNorm_tail hnorm) hsubv hK3 hinvrec
    constructor
    · intro e he
      obtain ⟨hwv', ⟨h', hh', hcont⟩, _⟩ := hrec.1 e he
      refine ⟨hwv', ⟨h', by simp [hh'], hcont⟩, ?_⟩
      intro c' cs' heq
      injection heq with heq1 heq2
      subst heq1
      cases cs with
      | nil => rw [minusGo_nil_cur] at he; cases he
      | cons c2 cs2 =>
        have hg1 : c.stop < c2.start := isNorm_head_lt hnorm c2 (by simp)
        have := (hrec.1 e he).2.2 c2 cs2 rfl
        by_cases h : m.stop = c2.stop
        · have hg2 : c2.start < c2.stop := (isNorm_tail hnorm).1 c2 (by simp)
          omega
        · simp [h] at this
          omega
    · exact hrec.2
  | case9 minuend c cs m t ts h1 h2 h3 h4 h5 ih =>
    have hmdef : m = if minuend.stop ≠ c.stop then c else minuend := rfl
    obtain ⟨hK1, hK2, hK3, hK4⟩ :=
      reload_key minuend c hwv (hnorm.1 c (by simp)) (hinv c cs rfl)
    rw [← hmdef] at hK1 hK2 hK3 hK4
    rw [minusGo_split minuend c t cs ts (hmdef ▸ h1) (hmdef ▸ h2) (hmdef ▸ h3)
      (hmdef ▸ h4) (hmdef ▸ h5), ← hmdef]
    have h1' : ¬ m.stop ≤ t.start := hmdef ▸ h1
    have h2' : ¬ t.stop ≤ m.start := hmdef ▸ h2
    have h3' : ¬ (m.start < t.start ∧ m.stop ≤ t.stop) := hmdef ▸ h3
    have h4' : ¬ (t.start ≤ m.start ∧ t.stop < m.stop) := hmdef ▸ h4
    have h5' : ¬ (t.start ≤ m.start ∧ m.stop ≤ t.stop) := hmdef ▸ h5
    have hsplit : m.start < t.start ∧ t.stop < m.stop := by
      rcases le_or_lt t.start m.start with h | h
      · exfalso
        rcases le_or_lt m.stop t.stop with g | g
        · exact h5' ⟨h, g⟩
        · exact h4' ⟨h, g⟩
      · rcases le_or_lt m.stop t.stop with g | g
        · exact absurd ⟨h, g⟩ h3'
        · exact ⟨h, g⟩
    have htv : t.start < t.stop := hsubv t (by simp)
    have hinvrec : ∀ c' cs', c :: cs = c' :: cs' →
        (Interval.mk t.stop m.stop).stop = c'.stop →
        c'.start ≤ (Interval.mk t.stop m.stop).start := by
      intro c' cs' heq hstop
      injection heq with heq1 heq2
      subst heq1
      show c.start ≤ t.stop
      omega
    have hrec := ih hnorm (fun w hw => hsubv w (by simp [hw]))
      (by show t.stop ≤ m.stop; omega) hinvrec
    have hlow : ∀ e ∈ minusGo (Interval.mk t.stop m.stop) (c :: cs) ts,
        t.stop ≤ e.start := by
      intro e he
      have hx := (hrec.1 e he).2.2 c cs rfl
      have hstop : (Interval.mk t.stop m.stop).stop = c.stop := hK1
      rw [if_pos hstop] at hx
      exact hx
    constructor
    · intro e he
      rcases List.mem_cons.mp he with rfl | he
      · refine ⟨le_of_lt hsplit.1, ⟨c, by simp, hK2, ?_⟩, fun c' cs' heq => by
          injection heq with heq1 heq2
          subst heq1
          exact hK4⟩
        show t.start ≤ c.stop
        omega
      · obtain ⟨hwv', hhost, _⟩ := hrec.1 e he
        refine ⟨hwv', hhost, ?_⟩
        intro c' cs' heq
        injection heq with heq1 heq2
        subst heq1
        have := hlow e he
        omega
    · rw [List.chain'_cons']
      refine ⟨?_, hrec.2⟩
      intro b hb
      have := hlow b (List.mem_of_mem_head? hb)
      show t.start < b.start
      omega

theorem memP_cons {p : Int} {x : Interval} {l : List Interval} :
    memP p (x :: l) ↔ Interval.memI p x ∨ memP p l := by
  unfold memP
  simp

theorem memP_nil {p : Int} : ¬ memP p ([] : List Interval) := by
  simp [memP]

/-- No point of the subtraction loop output lies in the (normalized)
subtrahend. -/
theorem minusGo_disjoint (minuend : Interval) (cur sub : List Interval)
    (hnorm : IsNormalized cur) (hsub : IsNormalized sub)
    (hwv : minuend.start ≤ minuend.stop)
    (hinv : ∀ c cs, cur = c :: cs → minuend.stop = c.stop → c.start ≤ minuend.start) :
    ∀ p : Int, memP p (minusGo minuend cur sub) → ¬ memP p sub := by
  induction minuend, cur, sub using minusGo.induct with
  | case1 minuend sub =>
    intro p hp
    rw [minusGo_nil_cur] at hp
    exact absurd hp memP_nil
  | case2 minuend c cs m hle ih =>
    intro p _
    exact memP_nil
  | case3 minuend c cs m hle =>
    intro p _
    exact memP_nil
  | case4 minuend c cs m t ts h1 ih =>
    have hmdef : m = if minuend.stop ≠ c.stop then c else minuend := rfl
    obtain ⟨hK1, hK2, hK3, hK4⟩ :=
      reload_key minuend c hwv (hnorm.1 c (by simp)) (hinv c cs rfl)
    rw [← hmdef] at hK1 hK2 hK3 hK4
    have h1' : m.stop ≤ t.start := hmdef ▸ h1
    have hinvrec : ∀ c2 cs2, cs = c2 :: cs2 → m.stop = c2.stop → c2.start ≤ m.start := by
      intro c2 cs2 hcs hstop
      exfalso
      have hg1 : c.stop < c2.start := isNorm_head_lt hnorm c2 (by rw [hcs]; simp)
      have hg2 : c2.start < c2.stop := (isNorm_tail hnorm).1 c2 (by rw [hcs]; simp)
      omega
    intro p hp
    rw [minusGo_before minuend c t cs ts (hmdef ▸ h1), ← hmdef] at hp
    rcases memP_cons.mp hp with hm | hp
    · rintro ⟨w, hw, hmw⟩
      have htv : t.start < t.stop := hsub.1 t (by simp)
      rcases List.mem_cons.mp hw with rfl | hw
      · have := hm.2
        have := hmw.1
        omega
      · have hg : t.stop < w.start := isNorm_head_lt hsub w hw
        have := hm.2
        have := hmw.1
        omega
    · exact ih (isNorm_tail hnorm) hsub hK3 hinvrec p hp
  | case5 minuend c cs m t ts h1 h2 ih =>
    have hmdef : m = if minuend.stop ≠ c.stop then c else minuend := rfl
    obtain ⟨hK1, hK2, hK3, hK4⟩ :=
      reload_key minuend c hwv (hnorm.1 c (by simp)) (hinv c cs rfl)
    rw [← hmdef] at hK1 hK2 hK3 hK4
    have h2' : t.stop ≤ m.start := hmdef ▸ h2
    have hinvrec : ∀ c' cs', c :: cs = c' :: cs' → m.stop = c'.stop →
        c'.start ≤ m.start := by
      intro c' cs' heq hstop
      injection heq with heq1 heq2
      subst heq1
      exact hK2
    intro p hp
    rw [minusGo_after minuend c t cs ts (hmdef ▸ h1) (hmdef ▸ h2), ← hmdef] at hp
    have hspec := minusGo_spec m (c :: cs) ts hnorm
      (fun w hw => hsub.1 w (by simp [hw])) hK3 hinvrec
    rintro ⟨w, hw, hmw⟩
    obtain ⟨e, he, hme⟩ := hp
    have hlb := (hspec.1 e he).2.2 c cs rfl
    rw [if_pos hK1] at hlb
    rcases List.mem_cons.mp hw with rfl | hw
    · -- p is at or after `m.start ≥ t.stop`, hence outside `t`
      have := hme.1
      have := hmw.2
      omega
    · exact ih hnorm (isNorm_tail hsub) hK3 hinvrec p ⟨e, he, hme⟩ ⟨w, hw, hmw⟩
  | case6 minuend c cs m t ts h1 h2 h3 ih =>
    have hmdef : m = if minuend.stop ≠ c.stop then c else minuend := rfl
    obtain ⟨hK1, hK2, hK3, hK4⟩ :=
      reload_key minuend c hwv (hnorm.1 c (by simp)) (hinv c cs rfl)
    rw [← hmdef] at hK1 hK2 hK3 hK4
    have h3' : m.start < t.start ∧ m.stop ≤ t.stop := hmdef ▸ h3
    have hinvrec : ∀ c2 cs2, cs = c2 :: cs2 → m.stop = c2.stop → c2.start ≤ m.start := by
      intro c2 cs2 hcs hstop
      exfalso
      have hg1 : c.stop < c2.start := isNorm_head_lt hnorm c2 (by rw [hcs]; simp)
      have hg2 : c2.start < c2.stop := (isNorm_tail hnorm).1 c2 (by rw [hcs]; simp)
      omega
    intro p hp
    rw [minusGo_left minuend c t cs ts (hmdef ▸ h1) (hmdef ▸ h2) (hmdef ▸ h3),
      ← hmdef] at hp
    rcases memP_cons.mp hp with hm | hp
    · rintro ⟨w, hw, hmw⟩
      have htv : t.start < t.stop := hsub.1 t (by simp)
      have hm2 : p < t.start := hm.2
      rcases List.mem_cons.mp hw with rfl | hw
      · have := hmw.1
        omega
      · have hg : t.stop < w.start := isNorm_head_lt hsub w hw
        have := hmw.1
        omega
    · exact ih (isNorm_tail hnorm) hsub hK3 hinvrec p hp
  | case7 minuend c cs m t ts h1 h2 h3 h4 ih =>
    have hmdef : m = if minuend.stop ≠ c.stop then c else minuend := rfl
    obtain ⟨hK1, hK2, hK3, hK4⟩ :=
      reload_key minuend c hwv (hnorm.1 c (by simp)) (hinv c cs rfl)
    rw [← hmdef] at hK1 hK2 hK3 hK4
    have h2' : ¬ t.stop ≤ m.start := hmdef ▸ h2
    have h4' : t.start ≤ m.start ∧ t.stop < m.stop := hmdef ▸ h4
    have hwv' : (Interval.mk t.stop m.stop).start ≤ (Interval.mk t.stop m.stop).stop := by
      show t.stop ≤ m.stop
      omega
    have hinvrec : ∀ c' cs', c :: cs = c' :: cs' →
        (Interval.mk t.stop m.stop).stop = c'.stop →
        c'.start ≤ (Interval.mk t.stop m.stop).start := by
      intro c' cs' heq hstop
      injection heq with heq1 heq2
      subst heq1
      show c.start ≤ t.stop
      omega
    intro p hp
    rw [minusGo_right minuend c t cs ts (hmdef ▸ h1) (hmdef ▸ h2) (hmdef ▸ h3)
      (hmdef ▸ h4), ← hmdef] at hp
    have hspec := minusGo_spec (Interval.mk t.stop m.stop) (c :: cs) ts hnorm
      (fun w hw => hsub.1 w (by simp [hw])) hwv' hinvrec
    rintro ⟨w, hw, hmw⟩
    obtain ⟨e, he, hme⟩ := hp
    have hlb := (hspec.1 e he).2.2 c cs rfl
    have hstop : (Interval.mk t.stop m.stop).stop = c.stop := hK1
    rw [if_pos hstop] at hlb
    have hlb' : t.stop ≤ e.start := hlb
    rcases List.mem_cons.mp hw with rfl | hw
    · have := hme.1
      have := hmw.2
      omega
    · exact ih hnorm (isNorm_tail hsub) hwv' hinvrec p ⟨e, he, hme⟩ ⟨w, hw, hmw⟩
  | case8 minuend c cs m t ts h1 h2 h3 h4 h5 ih =>
    have hmdef : m = if minuend.stop ≠ c.stop then c else minuend := rfl
    obtain ⟨hK1, hK2, hK3, hK4⟩ :=
      reload_key minuend c hwv (hnorm.1 c (by simp)) (hinv c cs rfl)
    rw [← hmdef] at hK1 hK2 hK3 hK4
    have hinvrec : ∀ c2 cs2, cs = c2 :: cs2 → m.stop = c2.stop → c2.start ≤ m.start := by
      intro c2 cs2 hcs hstop
      exfalso
      have hg1 : c.stop < c2.start := isNorm_head_lt hnorm c2 (by rw [hcs]; simp)
      have hg2 : c2.start < c2.stop := (isNorm_tail hnorm).1 c2 (by rw [hcs]; simp)
      omega
    intro p hp
    rw [minusGo_covered minuend c t cs ts (hmdef ▸ h1) (hmdef ▸ h2) (hmdef ▸ h3)
      (hmdef ▸ h4) (hmdef ▸ h5), ← hmdef] at hp
    exact ih (isNorm_tail hnorm) hsub hK3 hinvrec p hp
  | case9 minuend c cs m t ts h1 h2 h3 h4 h5 ih =>
    have hmdef : m = if minuend.stop ≠ c.stop then c else minuend := rfl
    obtain ⟨hK1, hK2, hK3, hK4⟩ :=
      reload_key minuend c hwv (hnorm.1 c (by simp)) (hinv c cs rfl)
    rw [← hmdef] at hK1 hK2 hK3 hK4
    have h1' : ¬ m.stop ≤ t.start := hmdef ▸ h1
    have h2' : ¬ t.stop ≤ m.start := hmdef ▸ h2
    have h3' : ¬ (m.start < t.start ∧ m.stop ≤ t.stop) := hmdef ▸ h3
    have h4' : ¬ (t.start ≤ m.start ∧ t.stop < m.stop) := hmdef ▸ h4
    have h5' : ¬ (t.start ≤ m.start ∧ m.stop ≤ t.stop) := hmdef ▸ h5
    have hsplit : m.start < t.start ∧ t.stop < m.stop := by
      rcases le_or_lt t.start m.start with h | h
      · exfalso
        rcases le_or_lt m.stop t.stop with g | g
        · exact h5' ⟨h, g⟩
        · exact h4' ⟨h, g⟩
      · rcases le_or_lt m.stop t.stop with g | g
        · exact absurd ⟨h, g⟩ h3'
        · exact ⟨h, g⟩
    have htv : t.start < t.stop := hsub.1 t (by simp)
    have hwv' : (Interval.mk t.stop m.stop).start ≤ (Interval.mk t.stop m.stop).stop := by
      show t.stop ≤ m.stop
      omega
    have hinvrec : ∀ c' cs', c :: cs = c' :: cs' →
        (Interval.mk t.stop m.stop).stop = c'.stop →
        c'.start ≤ (Interval.mk t.stop m.stop).start := by
      intro c' cs' heq hstop
      injection heq with heq1 heq2
      subst heq1
      show c.start ≤ t.stop
      omega
    intro p hp
    rw [minusGo_split minuend c t cs ts (hmdef ▸ h1) (hmdef ▸ h2) (hmdef ▸ h3)
      (hmdef ▸ h4) (hmdef ▸ h5), ← hmdef] at hp
    have hspec := minusGo_spec (Interval.mk t.stop m.stop) (c :: cs) ts hnorm
      (fun w hw => hsub.1 w (by simp [hw])) hwv' hinvrec
    rcases memP_cons.mp hp with hm | hp
    · rintro ⟨w, hw, hmw⟩
      have hm2 : p < t.start := hm.2
      rcases List.mem_cons.mp hw with rfl | hw
      · have := hmw.1
        omega
      · have hg : t.stop < w.start := isNorm_head_lt hsub w hw
        have := hmw.1
        omega
    · rintro ⟨w, hw, hmw⟩
      obtain ⟨e, he, hme⟩ := hp
      have hlb := (hspec.1 e he).2.2 c cs rfl
      have hstop : (Interval.mk t.stop m.stop).stop = c.stop := hK1
      rw [if_pos hstop] at hlb
      have hlb' : t.stop ≤ e.start := hlb
      rcases List.mem_cons.mp hw with rfl | hw
      · have := hme.1
        have := hmw.2
        omega
      · exact ih hnorm (isNorm_tail hsub) hwv' hinvrec p ⟨e, he, hme⟩ ⟨w, hw, hmw⟩

/-- Separated weakly-valid intervals have strictly increasing starts. -/
theorem gapped_head_lt (x : Interval) (xs : List Interval)
    (hc : List.Chain' Interval.gapped (x :: xs))
    (hw : ∀ e ∈ x :: xs, e.start ≤ e.stop) :
    ∀ b ∈ xs, x.stop < b.start := by
  induction xs generalizing x with
  | nil => intro b hb; cases hb
  | cons d ds ih =>
    intro b hb
    have hxd : x.stop < d.start := (List.chain'_cons.mp hc).1
    rcases List.mem_cons.mp hb with rfl | hb
    · exact hxd
    · have hd : d.start ≤ d.stop := hw d (by simp)
      have := ih d (List.chain'_cons.mp hc).2 (fun e he => hw e (by simp [List.mem_cons.mp he])) b hb
      omega

theorem sorted_of_gapped_wv (l : List Interval)
    (hc : List.Chain' Interval.gapped l) (hw : ∀ e ∈ l, e.start ≤ e.stop) :
    List.Sorted Interval.lexLe l := by
  induction l with
  | nil => simp
  | cons x xs ih =>
    rw [List.sorted_cons]
    refine ⟨?_, ih (List.chain'_cons'.mp hc).2 (fun e he => hw e (by simp [he]))⟩
    intro b hb
    have := gapped_head_lt x xs hc hw b hb
    have := hw x (by simp)
    exact Or.inl (by omega)

/-- A normalized slice is a fixed point of `Normalize`. -/
theorem Normalize_of_isNorm {l : IntervalSlice} (h : IsNormalized l) :
    Normalize l = l :=
  Normalize_eq_self l
    (sorted_of_gapped_wv l h.2 (fun e he => le_of_lt (h.1 e he))) h.2

theorem mem_dropWhile_of_not {l : List Interval} {a : Interval}
    (p : Interval → Bool) (ha : a ∈ l) (hpa : ¬ p a = true) :
    a ∈ l.dropWhile p := by
  induction l with
  | nil => cases ha
  | cons d ds ih =>
    rcases List.mem_cons.mp ha with rfl | ha
    · rw [List.dropWhile_cons]
      split
      · simp_all
      · simp
    · rw [List.dropWhile_cons]
      split
      · exact ih ha
      · simp [ha]

/-- Where the `Contain` cursor lands: in a normalized slice, dropping the
intervals that end before `x.start` lands exactly on the interval hosting
`x.start`. -/
theorem dropWhile_host (s : List Interval) (hs : IsNormalized s)
    (x c : Interval) (hc : c ∈ s) (h1 : c.start ≤ x.start) (h2 : x.start ≤ c.stop) :
    ∃ ts, s.dropWhile (fun t => decide (t.stop < x.start)) = c :: ts
      ∧ IsNormalized (c :: ts)
      ∧ (∀ w ∈ s, ¬ w.stop < x.start → w ∈ c :: ts) := by
  induction s with
  | nil => cases hc
  | cons d ds ih =>
    by_cases hpd : d.stop < x.start
    · have hdc : c ≠ d := by
        rintro rfl
        omega
      have hcds : c ∈ ds := by
        rcases List.mem_cons.mp hc with rfl | h
        · exact absurd rfl hdc
        · exact h
      obtain ⟨ts, hdw, hn, hkeep⟩ := ih (isNorm_tail hs) hcds
      refine ⟨ts, ?_, hn, ?_⟩
      · rw [List.dropWhile_cons]
        simp only [decide_eq_true_eq, if_pos hpd]
        exact hdw
      · intro w hw hpw
        rcases List.mem_cons.mp hw with rfl | hw
        · exact absurd hpd hpw
        · exact hkeep w hw hpw
    · have hceq : c = d := by
        rcases List.mem_cons.mp hc with rfl | h
        · rfl
        · exfalso
          have := isNorm_head_lt hs c h
          omega
      subst hceq
      refine ⟨ds, ?_, hs, ?_⟩
      · rw [List.dropWhile_cons]
        simp only [decide_eq_true_eq, if_neg hpd]
      · intro w hw _
        exact hw

/-- Completeness of the `Contain` cursor scan: a strictly separated list of
weakly valid intervals, each nested in some interval of a normalized slice,
is accepted. -/
theorem contain_of_hosts (res : List Interval) : ∀ (s : List Interval),
    IsNormalized s →
    List.Chain' Interval.gapped res →
    (∀ e ∈ res, e.start ≤ e.stop) →
    (∀ e ∈ res, ∃ c ∈ s, c.start ≤ e.start ∧ e.stop ≤ c.stop) →
    Contain s res = true := by
  induction res with
  | nil => intro s _ _ _ _; rfl
  | cons x xs ih =>
    intro s hs hchain hwv hhost
    obtain ⟨c, hc, hc1, hc2⟩ := hhost x (by simp)
    have hxwv : x.start ≤ x.stop := hwv x (by simp)
    obtain ⟨ts, hdw, hn, hkeep⟩ := dropWhile_host s hs x c hc hc1 (by omega)
    show (match s.dropWhile (fun t => decide (t.stop < x.start)) with
      | [] => false
      | t :: ts =>
        if x.start < t.start ∨ t.stop < x.stop then false
        else Contain (t :: ts) xs) = true
    rw [hdw]
    show (if x.start < c.start ∨ c.stop < x.stop then false else Contain (c :: ts) xs) = true
    rw [if_neg (by push_neg; omega)]
    apply ih (c :: ts) hn (List.chain'_cons'.mp hchain).2
      (fun e he => hwv e (by simp [he]))
    intro e he
    obtain ⟨c', hc', g1, g2⟩ := hhost e (by simp [he])
    have hgap : x.stop < e.start := gapped_head_lt x xs hchain hwv e he
    have hewv : e.start ≤ e.stop := hwv e (by simp [he])
    refine ⟨c', hkeep c' hc' (by omega), g1, g2⟩

end IntervalSlice

/-- Interval values within the Go `int64` range. -/
def InRange64 (s : IntervalSlice) : Prop :=
  ∀ i ∈ s, -(2 ^ 63) ≤ i.start ∧ i.stop ≤ 2 ^ 63 - 1

instance (s : IntervalSlice) : Decidable (InRange64 s) :=
  inferInstanceAs (Decidable (∀ i ∈ s, -(2 ^ 63) ≤ i.start ∧ i.stop ≤ 2 ^ 63 - 1))

/-- C1: for all normalized interval slices `a` (held by a `UUIDSet`) and
`b`, the subtraction `UUIDSet.MinusInterval` produces a set-difference
under-approximation in the claimed sense: the result is contained in `a`
(the Go `Contain` check accepts it) and it shares no point with `b`. -/
theorem claim_C1 (u : UUIDSet) (b : IntervalSlice)
    (ha : IntervalSlice.IsNormalized u.Intervals)
    (hb : IntervalSlice.IsNormalized b)
    (hra : InRange64 u.Intervals) (hrb : InRange64 b) :
    IntervalSlice.Contain u.Intervals (u.MinusInterval b).Intervals = true
    ∧ ∀ p : Int, memP p (u.MinusInterval b).Intervals → ¬ memP p b := by
  have hnb : IntervalSlice.Normalize b = b := IntervalSlice.Normalize_of_isNorm hb
  have hwv0 : (Interval.mk 0 0).start ≤ (Interval.mk 0 0).stop := le_refl 0
  have hinv0 : ∀ c cs, u.Intervals = c :: cs →
      (Interval.mk 0 0).stop = c.stop → c.start ≤ (Interval.mk 0 0).start := by
    intro c cs heq hstop
    have hv : c.start < c.stop := ha.1 c (by rw [heq]; simp)
    have hstop' : (0 : Int) = c.stop := hstop
    show c.start ≤ 0
    omega
  have hspec := IntervalSlice.minusGo_spec ⟨0, 0⟩ u.Intervals b ha hb.1 hwv0 hinv0
  have hfix : IntervalSlice.Normalize (IntervalSlice.minusGo ⟨0, 0⟩ u.Intervals b)
      = IntervalSlice.minusGo ⟨0, 0⟩ u.Intervals b :=
    IntervalSlice.Normalize_eq_self _
      (IntervalSlice.sorted_of_gapped_wv _ hspec.2 (fun e he => (hspec.1 e he).1))
      hspec.2
  have hkey : (u.MinusInterval b).Intervals
      = IntervalSlice.minusGo ⟨0, 0⟩ u.Intervals b := by
    show IntervalSlice.Normalize
      (IntervalSlice.minusGo ⟨0, 0⟩ u.Intervals (IntervalSlice.Normalize b)) = _
    rw [hnb, hfix]
  rw [hkey]
  constructor
  · exact IntervalSlice.contain_of_hosts _ u.Intervals ha hspec.2
      (fun e he => (hspec.1 e he).1) (fun e he => (hspec.1 e he).2.1)
  · exact IntervalSlice.minusGo_disjoint ⟨0, 0⟩ u.Intervals b ha hb hwv0 hinv0

theorem claim_C1_witness :
    IntervalSlice.Contain
      ((UUIDSet.mk [] [⟨1, 10⟩]).Intervals)
      ((UUIDSet.mk [] [⟨1, 10⟩]).MinusInterval [⟨3, 5⟩, ⟨7, 8⟩]).Intervals = true
    ∧ ∀ p : Int,
        memP p ((UUIDSet.mk [] [⟨1, 10⟩]).MinusInterval [⟨3, 5⟩, ⟨7, 8⟩]).Intervals →
        ¬ memP p [⟨3, 5⟩, ⟨7, 8⟩] :=
  claim_C1 (UUIDSet.mk [] [⟨1, 10⟩]) [⟨3, 5⟩, ⟨7, 8⟩]
    (by decide) (by decide) (by decide) (by decide)

/-- C2: `Normalize` returns a normalized slice — weakly sorted by start
(here: sorted by the full lexicographic order) with consecutive intervals
strictly separated, hence pairwise disjoint and with touching neighbours
merged — covering exactly the points of the input, and it is idempotent. -/
theorem claim_C2 (s : IntervalSlice) :
    (∀ p : Int, memP p (IntervalSlice.Normalize s) ↔ memP p s)
    ∧ IntervalSlice.Normalize (IntervalSlice.Normalize s) = IntervalSlice.Normalize s
    ∧ List.Sorted Interval.lexLe (IntervalSlice.Normalize s)
    ∧ List.Chain' Interval.gapped (IntervalSlice.Normalize s) :=
  ⟨fun p => IntervalSlice.memP_Normalize p s,
    IntervalSlice.Normalize_idem s,
    IntervalSlice.sorted_Normalize s,
    IntervalSlice.chain'_Normalize s⟩

/-- Decimal digit character. -/
def digitChar (n : Nat) : Char := Char.ofNat (48 + n)

/-- Decimal representation of a natural number, most significant digit
first (the digits Go `fmt.Sprintf("%d", ·)` produces).  `fuel` bounds the
recursion depth so the definition is structural and kernel-computable. -/
def natStrAux : Nat → Nat → List Char
  | 0, _ => []
  | fuel + 1, n =>
    if n < 10 then [digitChar n]
    else natStrAux fuel (n / 10) ++ [digitChar (n % 10)]

def natStr (n : Nat) : List Char := natStrAux (n + 1) n

/-- Go `fmt.Sprintf("%d", v)` for a signed 64-bit value. -/
def intStr (v : Int) : List Char :=
  if v < 0 then '-' :: natStr (-v).toNat else natStr v.toNat

/-- The digit characters of a decimal literal, as a value (`none` when the
list is empty or holds a non-digit). -/
def digitsVal (l : List Char) : Option Nat :=
  if l = [] then none
  else if l.all Char.isDigit then
    some (l.foldl (fun a c => a * 10 + (c.toNat - 48)) 0)
  else none

def parseIntPos (l : List Char) : Option Int :=
  (digitsVal l).bind fun v => if (v : Int) ≤ 2 ^ 63 - 1 then some (v : Int) else none

def parseIntNeg (l : List Char) : Option Int :=
  (digitsVal l).bind fun v => if (v : Int) ≤ 2 ^ 63 then some (-(v : Int)) else none

/-- Go `strconv.ParseInt(s, 10, 64)`, modelled at its contract: an optional
sign followed by decimal digits, value within the signed 64-bit range;
every failure is `none`. -/
def parseInt64 (s : List Char) : Option Int :=
  match s with
  | [] => none
  | c :: rest =>
    if c = '+' then parseIntPos rest
    else if c = '-' then parseIntNeg rest
    else parseIntPos s

/-- Go `strings.Split(s, sep)` for a single-character separator. -/
def splitChar (c : Char) : List Char → List (List Char)
  | [] => [[]]
  | x :: xs =>
    match splitChar c xs with
    | [] => [[]]
    | h :: t => if x = c then [] :: h :: t else (x :: h) :: t

/-- Wrap-around of Go `int64` arithmetic. -/
def wrap64 (z : Int) : Int := (z + 2 ^ 63) % 2 ^ 64 - 2 ^ 63

/-- Go `Interval.String`: `[n, n+1)` prints as `"n"`, `[n, m+1)` as
`"n-m"`; the `+1`/`-1` use `int64` arithmetic. -/
def Interval.String (i : Interval) : List Char :=
  if i.stop = wrap64 (i.start + 1) then intStr i.start
  else intStr i.start ++ '-' :: intStr (wrap64 (i.stop - 1))

/-- The one-part case of Go `parseInterval` (`"n"` is `[n, n+1)`), with the
final `Stop <= Start` validation. -/
def parseIntervalOne (p0 : List Char) : Except (List Char) Interval :=
  match parseInt64 p0 with
  | none => .error ("invalid interval format, must n[-n]").toList
  | some v =>
    if wrap64 (v + 1) ≤ v then
      .error ("invalid interval format, must n[-n] and the end must >= start").toList
    else .ok ⟨v, wrap64 (v + 1)⟩

/-- The two-part case of Go `parseInterval` (`"n-m"` is `[n, m+1)`), with
the final `Stop <= Start` validation. -/
def parseIntervalTwo (p0 p1 : List Char) : Except (List Char) Interval :=
  match parseInt64 p0 with
  | none => .error ("invalid interval format, must n[-n]").toList
  | some v0 =>
    match parseInt64 p1 with
    | none => .error ("invalid interval format, must n[-n]").toList
    | some v1 =>
      if wrap64 (v1 + 1) ≤ v0 then
        .error ("invalid interval format, must n[-n] and the end must >= start").toList
      else .ok ⟨v0, wrap64 (v1 + 1)⟩

/-- Go `parseInterval`: split on `'-'`; `"n"` is `[n, n+1)`, `"n-m"` is
`[n, m+1)`; any other shape, or an interval whose end does not exceed its
start, is an error. -/
def parseInterval (s : List Char) : Except (List Char) Interval :=
  match splitChar '-' s with
  | [p0] => parseIntervalOne p0
  | [p0, p1] => parseIntervalTwo p0 p1
  | _ => .error ("invalid interval format, must n[-n]").toList

instance {ε α : Type} [DecidableEq ε] [DecidableEq α] : DecidableEq (Except ε α) := fun a b =>
  match a, b with
  | .ok x, .ok y => decidable_of_iff (x = y) (by simp)
  | .error x, .error y => decidable_of_iff (x = y) (by simp)
  | .ok _, .error _ => isFalse (by simp)
  | .error _, .ok _ => isFalse (by simp)

example : parseInterval ("1-5").toList = .ok ⟨1, 6⟩ := by decide
example : parseInterval ("3").toList = .ok ⟨3, 4⟩ := by decide
example : (parseInterval ("5-3").toList).toOption = none := by decide
example : Interval.String ⟨1, 6⟩ = ("1-5").toList := by decide
example : Interval.String ⟨3, 4⟩ = ("3").toList := by decide

theorem natStrAux_eq : ∀ (n f1 f2 : Nat), n < f1 → n < f2 →
    natStrAux f1 n = natStrAux f2 n := by
  intro n
  induction n using Nat.strong_induction_on with
  | _ n ih =>
    intro f1 f2 h1 h2
    match f1, f2 with
    | f1 + 1, f2 + 1 =>
      show (if n < 10 then _ else natStrAux f1 (n / 10) ++ _)
        = (if n < 10 then _ else natStrAux f2 (n / 10) ++ _)
      by_cases h10 : n < 10
      · rw [if_pos h10, if_pos h10]
      · rw [if_neg h10, if_neg h10, ih (n / 10) (by omega) f1 f2 (by omega) (by omega)]

theorem natStr_eq (n : Nat) : natStr n =
    if n < 10 then [digitChar n] else natStr (n / 10) ++ [digitChar (n % 10)] := by
  show natStrAux (n + 1) n = _
  show (if n < 10 then _ else natStrAux n (n / 10) ++ _) = _
  by_cases h10 : n < 10
  · rw [if_pos h10, if_pos h10]
  · rw [if_neg h10, if_neg h10,
      natStrAux_eq (n / 10) n (n / 10 + 1) (by omega) (by omega)]
    rfl

theorem digitChar_spec : ∀ d : Nat, d < 10 →
    (digitChar d).isDigit = true ∧ (digitChar d).toNat = 48 + d
    ∧ digitChar d ≠ '-' ∧ digitChar d ≠ '+' := by decide

theorem natStr_ne_nil (n : Nat) : natStr n ≠ [] := by
  rw [natStr_eq]
  by_cases h10 : n < 10
  · rw [if_pos h10]; simp
  · rw [if_neg h10]; simp

theorem natStr_all_digit : ∀ n : Nat, ∀ c ∈ natStr n, c.isDigit = true := by
  intro n
  induction n using Nat.strong_induction_on with
  | _ n ih =>
    intro c hc
    rw [natStr_eq] at hc
    by_cases h10 : n < 10
    · rw [if_pos h10] at hc
      simp at hc
      subst hc
      exact (digitChar_spec n h10).1
    · rw [if_neg h10] at hc
      rcases List.mem_append.mp hc with h | h
      · exact ih (n / 10) (by omega) c h
      · simp at h
        subst h
        exact (digitChar_spec (n % 10) (by omega)).1

theorem natStr_foldl : ∀ n : Nat,
    (natStr n).foldl (fun a c => a * 10 + (c.toNat - 48)) 0 = n := by
  intro n
  induction n using Nat.strong_induction_on with
  | _ n ih =>
    rw [natStr_eq]
    by_cases h10 : n < 10
    · rw [if_pos h10]
      simp [(digitChar_spec n h10).2.1]
    · rw [if_neg h10]
      rw [List.foldl_append, ih (n / 10) (by omega)]
      simp [(digitChar_spec (n % 10) (by omega)).2.1]
      omega

theorem digitsVal_natStr (n : Nat) : digitsVal (natStr n) = some n := by
  unfold digitsVal
  rw [if_neg (natStr_ne_nil n)]
  rw [if_pos (List.all_eq_true.mpr (fun c hc => natStr_all_digit n c hc))]
  rw [natStr_foldl]

theorem parseIntPos_natStr (n : Nat) (h : (n : Int) ≤ 2 ^ 63 - 1) :
    parseIntPos (natStr n) = some (n : Int) := by
  unfold parseIntPos
  rw [digitsVal_natStr]
  show (if (n : Int) ≤ 2 ^ 63 - 1 then some ((n : Int)) else none) = some (n : Int)
  rw [if_pos h]

theorem parseInt64_natStr (n : Nat) (h : (n : Int) ≤ 2 ^ 63 - 1) :
    parseInt64 (natStr n) = some (n : Int) := by
  have hne := natStr_ne_nil n
  unfold parseInt64
  cases hn : natStr n with
  | nil => exact absurd hn hne
  | cons c rest =>
    have hc : c.isDigit = true := natStr_all_digit n c (by rw [hn]; simp)
    have hplus : ¬ c = '+' := by
      rintro rfl
      simp [Char.isDigit] at hc
    have hminus : ¬ c = '-' := by
      rintro rfl
      simp [Char.isDigit] at hc
    show (if c = '+' then parseIntPos rest
      else if c = '-' then parseIntNeg rest else parseIntPos (c :: rest)) = some (n : Int)
    rw [if_neg hplus, if_neg hminus, ← hn]
    exact parseIntPos_natStr n h

theorem splitChar_ne_nil (c : Char) : ∀ s : List Char, splitChar c s ≠ [] := by
  intro s
  induction s with
  | nil => simp [splitChar]
  | cons x xs ih =>
    show (match splitChar c xs with
      | [] => [[]]
      | h :: t => if x = c then [] :: h :: t else (x :: h) :: t) ≠ []
    cases hs : splitChar c xs with
    | nil => simp
    | cons h t =>
      by_cases hy : x = c
      · simp [hy]
      · simp [hy]

theorem splitChar_no_sep (c : Char) : ∀ s : List Char,
    (∀ c' ∈ s, c' ≠ c) → splitChar c s = [s] := by
  intro s
  induction s with
  | nil => intro _; rfl
  | cons x xs ih =>
    intro h
    show (match splitChar c xs with
      | [] => [[]]
      | h :: t => if x = c then [] :: h :: t else (x :: h) :: t) = [x :: xs]
    rw [ih (fun c' hc' => h c' (by simp [hc']))]
    show (if x = c then [[], xs] else [x :: xs]) = [x :: xs]
    rw [if_neg (h x (by simp))]

theorem splitChar_append (c : Char) : ∀ (a rest : List Char),
    (∀ c' ∈ a, c' ≠ c) →
    splitChar c (a ++ c :: rest) = a :: splitChar c rest := by
  intro a
  induction a with
  | nil =>
    intro rest _
    show (match splitChar c rest with
      | [] => [[]]
      | h :: t => if c = c then [] :: h :: t else (c :: h) :: t) = [] :: splitChar c rest
    cases hs : splitChar c rest with
    | nil => exact absurd hs (splitChar_ne_nil c rest)
    | cons h t =>
      show (if c = c then [] :: h :: t else (c :: h) :: t) = [] :: h :: t
      rw [if_pos rfl]
  | cons x xs ih =>
    intro rest hnc
    show (match splitChar c (xs ++ c :: rest) with
      | [] => [[]]
      | h :: t => if x = c then [] :: h :: t else (x :: h) :: t)
      = (x :: xs) :: splitChar c rest
    rw [ih rest (fun c' hc' => hnc c' (by simp [hc']))]
    show (if x = c then [] :: xs :: splitChar c rest
      else (x :: xs) :: splitChar c rest) = (x :: xs) :: splitChar c rest
    rw [if_neg (hnc x (by simp))]

theorem natStr_no_dash (n : Nat) : ∀ c ∈ natStr n, c ≠ '-' := by
  intro c hc
  have := natStr_all_digit n c hc
  rintro rfl
  simp [Char.isDigit] at this

theorem wrap64_eq {z : Int} (h1 : -(2 ^ 63) ≤ z) (h2 : z ≤ 2 ^ 63 - 1) :
    wrap64 z = z := by
  unfold wrap64
  omega

/-- Round trip of printing and parsing for an interval with a nonnegative
start and an `int64` end. -/
theorem parseInterval_roundtrip (i : Interval)
    (h1 : 0 ≤ i.start) (h2 : i.start < i.stop) (h3 : i.stop ≤ 2 ^ 63 - 1) :
    parseInterval (Interval.String i) = .ok i := by
  have hw1 : wrap64 (i.start + 1) = i.start + 1 := wrap64_eq (by omega) (by omega)
  obtain ⟨nstart, hnstart⟩ : ∃ n : Nat, (n : Int) = i.start := ⟨i.start.toNat, by omega⟩
  by_cases hone : i.stop = i.start + 1
  · -- prints as a single number
    have hcond : i.stop = wrap64 (i.start + 1) := by rw [hw1]; exact hone
    unfold Interval.String
    rw [if_pos hcond]
    unfold intStr
    rw [if_neg (by omega)]
    have hstart : i.start.toNat = nstart := by omega
    rw [hstart]
    unfold parseInterval
    rw [splitChar_no_sep '-' (natStr nstart) (natStr_no_dash nstart)]
    show parseIntervalOne (natStr nstart) = Except.ok i
    unfold parseIntervalOne
    rw [parseInt64_natStr nstart (by omega)]
    show (if wrap64 ((nstart : Int) + 1) ≤ (nstart : Int) then _ else _) = _
    rw [hnstart, hw1, if_neg (by omega)]
    show Except.ok ⟨i.start, i.start + 1⟩ = Except.ok i
    rw [← hone]
  · -- prints as "start-(stop-1)"
    have hcond : ¬ i.stop = wrap64 (i.start + 1) := by rw [hw1]; omega
    have hw2 : wrap64 (i.stop - 1) = i.stop - 1 := wrap64_eq (by omega) (by omega)
    obtain ⟨nlast, hnlast⟩ : ∃ n : Nat, (n : Int) = i.stop - 1 := ⟨(i.stop - 1).toNat, by omega⟩
    unfold Interval.String
    rw [if_neg hcond, hw2]
    unfold intStr
    rw [if_neg (by omega), if_neg (by omega)]
    have hstart : i.start.toNat = nstart := by omega
    have hlast : (i.stop - 1).toNat = nlast := by omega
    rw [hstart, hlast]
    unfold parseInterval
    rw [splitChar_append '-' (natStr nstart) (natStr nlast) (natStr_no_dash nstart)]
    rw [splitChar_no_sep '-' (natStr nlast) (natStr_no_dash nlast)]
    show parseIntervalTwo (natStr nstart) (natStr nlast) = Except.ok i
    unfold parseIntervalTwo
    rw [parseInt64_natStr nstart (by omega), parseInt64_natStr nlast (by omega)]
    have hw3 : wrap64 ((nlast : Int) + 1) = i.stop := by
      rw [hnlast]
      have heq : i.stop - 1 + 1 = i.stop := by omega
      rw [heq]
      exact wrap64_eq (by omega) (by omega)
    show (if wrap64 ((nlast : Int) + 1) ≤ (nstart : Int) then _ else _) = _
    rw [hw3, hnstart, if_neg (by omega)]

/-- C3 counterexample: the interval `[-1, 0)` satisfies `Stop > Start` but
its printed form `"-1"` splits on the minus sign and fails to parse, so
`parseInterval(i.String()) == i` does not hold for it. -/
theorem claim_C3_cex :
    (Interval.mk (-1) 0).start < (Interval.mk (-1) 0).stop
    ∧ (parseInterval (Interval.String (Interval.mk (-1) 0))).toOption
        ≠ some (Interval.mk (-1) 0) := by decide

/-- C3 (amended): restricted to intervals with a nonnegative `Start` (so
that the printed form contains no interior minus sign) and an in-range
`Stop`, parsing the textual form returns the same interval.  The original
claim, quantified over all `int64` intervals with `Stop > Start`, fails for
negative starts (see the counterexample). -/
theorem claim_C3 (i : Interval)
    (h1 : 0 ≤ i.start) (h2 : i.start < i.stop) (h3 : i.stop ≤ 2 ^ 63 - 1) :
    parseInterval (Interval.String i) = .ok i :=
  parseInterval_roundtrip i h1 h2 h3

theorem claim_C3_witness :
    parseInterval (Interval.String ⟨1, 6⟩) = .ok ⟨1, 6⟩ :=
  claim_C3 ⟨1, 6⟩ (by decide) (by decide) (by decide)

/-- Lower-case hexadecimal digit. -/
def hexDigitChar (n : Nat) : Char :=
  if n < 10 then Char.ofNat (48 + n) else Char.ofNat (87 + n)

def byteHex (b : Nat) : List Char := [hexDigitChar (b / 16), hexDigitChar (b % 16)]

def hexBytes (l : List Nat) : List Char := (l.map byteHex).flatten

/-- The canonical string of a UUID (`github.com/google/uuid`, `UUID.String`):
lower-case hex in 8-4-4-4-12 groups.  This is the map key
`set.SID.String()` used by `MysqlGTIDSet`. -/
def sidString (b : List Nat) : List Char :=
  hexBytes (b.take 4)
    ++ '-' :: hexBytes ((b.drop 4).take 2)
    ++ '-' :: hexBytes ((b.drop 6).take 2)
    ++ '-' :: hexBytes ((b.drop 8).take 2)
    ++ '-' :: hexBytes (b.drop 10)

/-- Go `UUIDSet.AddInterval`: append and renormalize. -/
def UUIDSet.AddInterval (s : UUIDSet) (ins : IntervalSlice) : UUIDSet :=
  ⟨s.SID, IntervalSlice.Normalize (s.Intervals ++ ins)⟩

/-- Go `MysqlGTIDSet`: `map[string]*UUIDSet`, modelled as an association
list (insertion order stands for the irrelevant map iteration order). -/
structure MysqlGTIDSet where
  Sets : List (List Char × UUIDSet)
deriving DecidableEq, Repr

def lookupSID : List (List Char × UUIDSet) → List Char → Option UUIDSet
  | [], _ => none
  | (k, v) :: rest, key => if k = key then some v else lookupSID rest key

/-- Replace the value stored under `key` (Go map update). -/
def updateSID (sets : List (List Char × UUIDSet)) (key : List Char) (v : UUIDSet) :
    List (List Char × UUIDSet) :=
  sets.map (fun kv => if kv.1 = key then (key, v) else kv)

/-- Remove the entry stored under `key` (Go `delete`). -/
def removeSID (sets : List (List Char × UUIDSet)) (key : List Char) :
    List (List Char × UUIDSet) :=
  sets.filter (fun kv => decide (kv.1 ≠ key))

/-- Go `MysqlGTIDSet.AddSet`: a `nil` argument is ignored; otherwise merge
into the existing entry for the SID or insert a new one. -/
def MysqlGTIDSet.AddSet (g : MysqlGTIDSet) (set : Option UUIDSet) : MysqlGTIDSet :=
  match set with
  | none => g
  | some s =>
    match lookupSID g.Sets (sidString s.SID) with
    | some o => ⟨updateSID g.Sets (sidString s.SID) (o.AddInterval s.Intervals)⟩
    | none => ⟨g.Sets ++ [(sidString s.SID, s)]⟩

/-- Go `MysqlGTIDSet.MinusSet`: a `nil` argument is ignored; otherwise
subtract from the entry for the SID (if any) and delete the entry when its
interval list becomes `nil`. -/
def MysqlGTIDSet.MinusSet (g : MysqlGTIDSet) (set : Option UUIDSet) : MysqlGTIDSet :=
  match set with
  | none => g
  | some u =>
    match lookupSID g.Sets (sidString u.SID) with
    | none => g
    | some o =>
      if (o.MinusInterval u.Intervals).Intervals = [] then
        ⟨removeSID g.Sets (sidString u.SID)⟩
      else
        ⟨updateSID g.Sets (sidString u.SID) (o.MinusInterval u.Intervals)⟩

theorem lookupSID_removeSID : ∀ (sets : List (List Char × UUIDSet)) (key : List Char),
    lookupSID (removeSID sets key) key = none := by
  intro sets key
  induction sets with
  | nil => rfl
  | cons kv rest ih =>
    unfold removeSID at ih ⊢
    rw [List.filter_cons]
    by_cases hk : kv.1 = key
    · rw [if_neg (by simp [hk])]
      exact ih
    · rw [if_pos (by simp [hk])]
      show (if kv.1 = key then some kv.2 else lookupSID (removeSID rest key) key) = none
      rw [if_neg hk]
      exact ih

theorem lookupSID_updateSID : ∀ (sets : List (List Char × UUIDSet)) (key : List Char)
    (v o : UUIDSet), lookupSID sets key = some o →
    lookupSID (updateSID sets key v) key = some v := by
  intro sets key v
  induction sets with
  | nil => intro o h; cases h
  | cons kv rest ih =>
    intro o h
    unfold updateSID at ih ⊢
    rw [List.map_cons]
    by_cases hk : kv.1 = key
    · rw [if_pos hk]
      show (if key = key then some v else _) = some v
      rw [if_pos rfl]
    · rw [if_neg hk]
      show (if kv.1 = key then some kv.2 else lookupSID (updateSID rest key v) key) = some v
      rw [if_neg hk]
      have h' : lookupSID rest key = some o := by
        have := h
        unfold lookupSID at this
        rw [if_neg hk] at this
        exact this
      exact ih o h'

/-- C10: `AddSet nil` and `MinusSet nil` leave the GTID set unchanged, and
`MinusSet` deletes the SID's map entry exactly when the subtraction empties
that SID's interval list. -/
theorem claim_C10 (g : MysqlGTIDSet) :
    g.AddSet none = g
    ∧ g.MinusSet none = g
    ∧ ∀ (u s0 : UUIDSet),
        lookupSID g.Sets (sidString u.SID) = some s0 →
        (lookupSID (g.MinusSet (some u)).Sets (sidString u.SID) = none
          ↔ (s0.MinusInterval u.Intervals).Intervals = []) := by
  refine ⟨rfl, rfl, ?_⟩
  intro u s0 hl
  show lookupSID (match lookupSID g.Sets (sidString u.SID) with
    | none => g
    | some o =>
      if (o.MinusInterval u.Intervals).Intervals = [] then
        MysqlGTIDSet.mk (removeSID g.Sets (sidString u.SID))
      else
        MysqlGTIDSet.mk (updateSID g.Sets (sidString u.SID)
          (o.MinusInterval u.Intervals))).Sets (sidString u.SID) = none
    ↔ (s0.MinusInterval u.Intervals).Intervals = []
  rw [hl]
  show lookupSID (if (s0.MinusInterval u.Intervals).Intervals = [] then
      MysqlGTIDSet.mk (removeSID g.Sets (sidString u.SID))
    else
      MysqlGTIDSet.mk (updateSID g.Sets (sidString u.SID)
        (s0.MinusInterval u.Intervals))).Sets (sidString u.SID) = none
    ↔ (s0.MinusInterval u.Intervals).Intervals = []
  by_cases he : (s0.MinusInterval u.Intervals).Intervals = []
  · rw [if_pos he]
    simp only [he, iff_true]
    exact lookupSID_removeSID g.Sets (sidString u.SID)
  · rw [if_neg he]
    simp only [he, iff_false]
    rw [lookupSID_updateSID g.Sets (sidString u.SID) _ s0 hl]
    simp

theorem claim_C10_witness :
    (MysqlGTIDSet.mk [(sidString (List.replicate 16 0),
        UUIDSet.mk (List.replicate 16 0) [⟨1, 5⟩])]).AddSet none
      = MysqlGTIDSet.mk [(sidString (List.replicate 16 0),
        UUIDSet.mk (List.replicate 16 0) [⟨1, 5⟩])]
    ∧ (MysqlGTIDSet.mk [(sidString (List.replicate 16 0),
        UUIDSet.mk (List.replicate 16 0) [⟨1, 5⟩])]).MinusSet none
      = MysqlGTIDSet.mk [(sidString (List.replicate 16 0),
        UUIDSet.mk (List.replicate 16 0) [⟨1, 5⟩])]
    ∧ (lookupSID ((MysqlGTIDSet.mk [(sidString (List.replicate 16 0),
        UUIDSet.mk (List.replicate 16 0) [⟨1, 5⟩])]).MinusSet
          (some (UUIDSet.mk (List.replicate 16 0) [⟨1, 5⟩]))).Sets
        (sidString (UUIDSet.mk (List.replicate 16 0) [⟨1, 5⟩]).SID) = none
      ↔ ((UUIDSet.mk (List.replicate 16 0) [⟨1, 5⟩]).MinusInterval
          ((UUIDSet.mk (List.replicate 16 0) [⟨1, 5⟩]).Intervals)).Intervals = []) := by
  obtain ⟨h1, h2, h3⟩ := claim_C10 (MysqlGTIDSet.mk [(sidString (List.replicate 16 0),
    UUIDSet.mk (List.replicate 16 0) [⟨1, 5⟩])])
  exact ⟨h1, h2, h3 (UUIDSet.mk (List.replicate 16 0) [⟨1, 5⟩])
    (UUIDSet.mk (List.replicate 16 0) [⟨1, 5⟩]) (by decide)⟩

/-- Little-endian 8-byte encoding of a 64-bit value
(`binary.Write(w, binary.LittleEndian, ·)`). -/
def u64le (n : Nat) : List Nat :=
  [n % 256, n / 256 % 256, n / 65536 % 256, n / 16777216 % 256,
   n / 4294967296 % 256, n / 1099511627776 % 256,
   n / 281474976710656 % 256, n / 72057594037927936 % 256]

/-- `binary.LittleEndian.Uint64` on the first 8 bytes.  (Go panics on a
shorter slice; the decoders below only call this after checking lengths.) -/
def readU64 : List Nat → Nat
  | b0 :: b1 :: b2 :: b3 :: b4 :: b5 :: b6 :: b7 :: _ =>
    b0 + 256 * b1 + 65536 * b2 + 16777216 * b3 + 4294967296 * b4
      + 1099511627776 * b5 + 281474976710656 * b6 + 72057594037927936 * b7
  | _ => 0

/-- The `uint64` bit pattern of an `int64` (two's complement). -/
def toUint64 (i : Int) : Nat := (i % 2 ^ 64).toNat

/-- The `int64` value of a `uint64` bit pattern. -/
def toInt64 (n : Nat) : Int := if n < 2 ^ 63 then (n : Int) else (n : Int) - 2 ^ 64

def encodeInt64 (i : Int) : List Nat := u64le (toUint64 i)

/-- Go `UUIDSet.encode`: 16 raw SID bytes, the `int64` interval count, then
`(start, stop)` pairs, all little-endian. -/
def UUIDSet.encode (s : UUIDSet) : List Nat :=
  s.SID ++ u64le s.Intervals.length
    ++ (s.Intervals.map (fun i => encodeInt64 i.start ++ encodeInt64 i.stop)).flatten

/-- The interval-reading loop of Go `UUIDSet.decode`. -/
def readIntervals : Nat → List Nat → IntervalSlice
  | 0, _ => []
  | k + 1, data =>
    ⟨toInt64 (readU64 data), toInt64 (readU64 (data.drop 8))⟩
      :: readIntervals k (data.drop 16)

/-- Go `UUIDSet.decode`: check the 24-byte minimum, read the SID and the
interval count, check that the declared length fits, read the intervals;
returns the number of bytes consumed together with the set. -/
def UUIDSet.decodeBytes (data : List Nat) : Except (List Char) (Nat × UUIDSet) :=
  if data.length < 24 then .error ("invalid uuid set buffer, less 24").toList
  else
    let n := readU64 (data.drop 16)
    if data.length < 16 * n + 24 then .error ("invalid uuid set buffer").toList
    else .ok (24 + 16 * n, ⟨data.take 16, readIntervals n (data.drop 24)⟩)

/-- The per-set loop of Go `DecodeMysqlGTIDSet`: decode `n` sets, adding
each with `AddSet`, advancing by the consumed byte count. -/
def decodeSetsLoop : Nat → List Nat → MysqlGTIDSet → Except (List Char) MysqlGTIDSet
  | 0, _, g => .ok g
  | k + 1, d, g =>
    match UUIDSet.decodeBytes d with
    | .error e => .error e
    | .ok (consumed, set) => decodeSetsLoop k (d.drop consumed) (g.AddSet (some set))

/-- Go `DecodeMysqlGTIDSet`. -/
def DecodeMysqlGTIDSet (data : List Nat) : Except (List Char) MysqlGTIDSet :=
  if data.length < 8 then .error ("invalid gtid set buffer, less 4").toList
  else decodeSetsLoop (readU64 data) (data.drop 8) ⟨[]⟩

/-- Go `MysqlGTIDSet.Encode`: `u64` set count, then each set's encoding in
iteration order. -/
def MysqlGTIDSet.Encode (g : MysqlGTIDSet) : List Nat :=
  u64le g.Sets.length ++ (g.Sets.map (fun kv => kv.2.encode)).flatten

/-- First-occurrence key distinctness of the association list (all states
reachable through the Go map satisfy it). -/
def keysDistinct : List (List Char × UUIDSet) → Bool
  | [] => true
  | kv :: rest => decide (lookupSID rest kv.1 = none) && keysDistinct rest

/-- Well-formedness of a `UUIDSet` as produced by the Go code: a 16-byte
SID and `int64` interval bounds. -/
def UUIDSetWF (s : UUIDSet) : Prop :=
  s.SID.length = 16 ∧ (∀ b ∈ s.SID, b < 256)
  ∧ (∀ i ∈ s.Intervals, -(2 ^ 63) ≤ i.start ∧ i.start < 2 ^ 63
      ∧ -(2 ^ 63) ≤ i.stop ∧ i.stop < 2 ^ 63)
  ∧ s.Intervals.length < 2 ^ 64

instance (s : UUIDSet) : Decidable (UUIDSetWF s) :=
  inferInstanceAs (Decidable (_ ∧ _ ∧ _ ∧ _))

/-- Well-formedness of a `MysqlGTIDSet`: every entry keyed by its SID
string, entries well formed, keys distinct. -/
def MysqlGTIDSetWF (g : MysqlGTIDSet) : Prop :=
  (∀ kv ∈ g.Sets, kv.1 = sidString kv.2.SID ∧ UUIDSetWF kv.2)
  ∧ keysDistinct g.Sets = true
  ∧ g.Sets.length < 2 ^ 64

instance (g : MysqlGTIDSet) : Decidable (MysqlGTIDSetWF g) :=
  inferInstanceAs (Decidable (_ ∧ _ ∧ _))

theorem readU64_u64le (n : Nat) (rest : List Nat) (h : n < 2 ^ 64) :
    readU64 (u64le n ++ rest) = n := by
  show n % 256 + 256 * (n / 256 % 256) + 65536 * (n / 65536 % 256)
      + 16777216 * (n / 16777216 % 256) + 4294967296 * (n / 4294967296 % 256)
      + 1099511627776 * (n / 1099511627776 % 256)
      + 281474976710656 * (n / 281474976710656 % 256)
      + 72057594037927936 * (n / 72057594037927936 % 256) = n
  omega

theorem toInt64_toUint64 {i : Int} (h1 : -(2 ^ 63) ≤ i) (h2 : i < 2 ^ 63) :
    toInt64 (toUint64 i) = i ∧ toUint64 i < 2 ^ 64 := by
  unfold toInt64 toUint64
  split_ifs <;> omega

theorem readU64_encodeInt64 {i : Int} (rest : List Nat)
    (h1 : -(2 ^ 63) ≤ i) (h2 : i < 2 ^ 63) :
    toInt64 (readU64 (encodeInt64 i ++ rest)) = i := by
  obtain ⟨he, hlt⟩ := toInt64_toUint64 h1 h2
  unfold encodeInt64
  rw [readU64_u64le _ _ hlt]
  exact he

theorem flat_pairs_length (ivs : IntervalSlice) :
    ((ivs.map (fun i => encodeInt64 i.start ++ encodeInt64 i.stop)).flatten).length
      = 16 * ivs.length := by
  induction ivs with
  | nil => rfl
  | cons i ivs ih =>
    show ((encodeInt64 i.start ++ encodeInt64 i.stop)
      ++ (ivs.map (fun i => encodeInt64 i.start ++ encodeInt64 i.stop)).flatten).length = _
    rw [List.length_append, ih]
    show 16 + 16 * ivs.length = 16 * (ivs.length + 1)
    omega

theorem readIntervals_encode : ∀ (ivs : IntervalSlice) (rest : List Nat),
    (∀ i ∈ ivs, -(2 ^ 63) ≤ i.start ∧ i.start < 2 ^ 63
      ∧ -(2 ^ 63) ≤ i.stop ∧ i.stop < 2 ^ 63) →
    readIntervals ivs.length
      ((ivs.map (fun i => encodeInt64 i.start ++ encodeInt64 i.stop)).flatten ++ rest)
      = ivs := by
  intro ivs
  induction ivs with
  | nil => intro rest _; rfl
  | cons i ivs ih =>
    intro rest hr
    obtain ⟨hs1, hs2, ht1, ht2⟩ := hr i (by simp)
    have hflat : (((i :: ivs).map
        (fun i => encodeInt64 i.start ++ encodeInt64 i.stop)).flatten) ++ rest
        = encodeInt64 i.start ++ (encodeInt64 i.stop
          ++ ((ivs.map (fun i => encodeInt64 i.start ++ encodeInt64 i.stop)).flatten
            ++ rest)) := by
      simp
    rw [List.length_cons, readIntervals, hflat]
    have hdrop8 : (encodeInt64 i.start ++ (encodeInt64 i.stop
        ++ ((ivs.map (fun i => encodeInt64 i.start ++ encodeInt64 i.stop)).flatten
          ++ rest))).drop 8
        = encodeInt64 i.stop
          ++ ((ivs.map (fun i => encodeInt64 i.start ++ encodeInt64 i.stop)).flatten
            ++ rest) :=
      List.drop_left' rfl
    have hdrop16 : (encodeInt64 i.start ++ (encodeInt64 i.stop
        ++ ((ivs.map (fun i => encodeInt64 i.start ++ encodeInt64 i.stop)).flatten
          ++ rest))).drop 16
        = (ivs.map (fun i => encodeInt64 i.start ++ encodeInt64 i.stop)).flatten
          ++ rest := by
      rw [← List.append_assoc]
      exact List.drop_left' rfl
    rw [hdrop8, hdrop16, readU64_encodeInt64 _ hs1 hs2, readU64_encodeInt64 _ ht1 ht2,
      ih rest (fun w hw => hr w (by simp [hw]))]

theorem uuidSet_encode_length (s : UUIDSet) (hsid : s.SID.length = 16) :
    s.encode.length = 24 + 16 * s.Intervals.length := by
  unfold UUIDSet.encode
  rw [List.length_append, List.length_append, hsid, flat_pairs_length]
  show 16 + 8 + 16 * s.Intervals.length = _
  omega

theorem uuidSet_decode_encode (s : UUIDSet) (hwf : UUIDSetWF s) (rest : List Nat) :
    UUIDSet.decodeBytes (s.encode ++ rest)
      = .ok (24 + 16 * s.Intervals.length, s) := by
  obtain ⟨hsid, _hb, hiv, hcnt⟩ := hwf
  have hrearr : s.encode ++ rest
      = s.SID ++ (u64le s.Intervals.length
        ++ ((s.Intervals.map (fun i => encodeInt64 i.start ++ encodeInt64 i.stop)).flatten
          ++ rest)) := by
    unfold UUIDSet.encode
    simp [List.append_assoc]
  have hlen1 : (s.encode ++ rest).length
      = 24 + 16 * s.Intervals.length + rest.length := by
    rw [List.length_append, uuidSet_encode_length s hsid]
  have hdrop16 : (s.encode ++ rest).drop 16
      = u64le s.Intervals.length
        ++ ((s.Intervals.map (fun i => encodeInt64 i.start ++ encodeInt64 i.stop)).flatten
          ++ rest) := by
    rw [hrearr]
    exact List.drop_left' hsid
  have hread : readU64 ((s.encode ++ rest).drop 16) = s.Intervals.length := by
    rw [hdrop16]
    exact readU64_u64le _ _ hcnt
  have htake : (s.encode ++ rest).take 16 = s.SID := by
    rw [hrearr]
    exact List.take_left' hsid
  have hdrop24 : (s.encode ++ rest).drop 24
      = (s.Intervals.map (fun i => encodeInt64 i.start ++ encodeInt64 i.stop)).flatten
        ++ rest := by
    rw [hrearr, ← List.append_assoc]
    refine List.drop_left' ?_
    rw [List.length_append, hsid]
    rfl
  unfold UUIDSet.decodeBytes
  rw [if_neg (by omega)]
  show (if (s.encode ++ rest).length
      < 16 * readU64 ((s.encode ++ rest).drop 16) + 24 then _ else _) = _
  rw [hread, if_neg (by omega), htake, hdrop24,
    readIntervals_encode s.Intervals rest hiv]

theorem lookupSID_none_ne : ∀ (l : List (List Char × UUIDSet)) (key : List Char),
    lookupSID l key = none → ∀ kv ∈ l, kv.1 ≠ key := by
  intro l key
  induction l with
  | nil => intro _ kv hkv; cases hkv
  | cons kv0 rest ih =>
    intro h kv hkv
    unfold lookupSID at h
    by_cases hk : kv0.1 = key
    · rw [if_pos hk] at h
      cases h
    · rw [if_neg hk] at h
      rcases List.mem_cons.mp hkv with rfl | hkv
      · exact hk
      · exact ih h kv hkv

theorem lookupSID_append_none : ∀ (a b : List (List Char × UUIDSet)) (key : List Char),
    lookupSID a key = none → lookupSID (a ++ b) key = lookupSID b key := by
  intro a b key
  induction a with
  | nil => intro _; rfl
  | cons kv rest ih =>
    intro h
    unfold lookupSID at h
    show (if kv.1 = key then some kv.2 else lookupSID (rest ++ b) key) = _
    by_cases hk : kv.1 = key
    · rw [if_pos hk] at h
      cases h
    · rw [if_neg hk] at h ⊢
      exact ih h

theorem decodeSetsLoop_encode : ∀ (sets : List (List Char × UUIDSet)) (acc : MysqlGTIDSet),
    (∀ kv ∈ sets, kv.1 = sidString kv.2.SID ∧ UUIDSetWF kv.2) →
    keysDistinct sets = true →
    (∀ kv ∈ sets, lookupSID acc.Sets kv.1 = none) →
    decodeSetsLoop sets.length ((sets.map (fun kv => kv.2.encode)).flatten) acc
      = .ok ⟨acc.Sets ++ sets⟩ := by
  intro sets
  induction sets with
  | nil =>
    intro acc _ _ _
    show Except.ok acc = Except.ok ⟨acc.Sets ++ []⟩
    rw [List.append_nil]
  | cons kv restl ih =>
    intro acc hwf hdist hfresh
    obtain ⟨hkey, hswf⟩ := hwf kv (by simp)
    have hdist' := hdist
    unfold keysDistinct at hdist'
    simp only [Bool.and_eq_true, decide_eq_true_eq] at hdist'
    obtain ⟨hdisth, hdistr⟩ := hdist' 
    have hfl : ((kv :: restl).map (fun kv => kv.2.encode)).flatten
        = kv.2.encode ++ (restl.map (fun kv => kv.2.encode)).flatten := by
      simp
    have hdec := uuidSet_decode_encode kv.2 hswf
      ((restl.map (fun kv => kv.2.encode)).flatten)
    rw [List.length_cons, hfl]
    show (match UUIDSet.decodeBytes (kv.2.encode
        ++ (restl.map (fun kv : List Char × UUIDSet => kv.2.encode)).flatten) with
      | Except.error e => (Except.error e : Except (List Char) MysqlGTIDSet)
      | Except.ok (consumed, set) =>
        decodeSetsLoop restl.length
          ((kv.2.encode
            ++ (restl.map (fun kv : List Char × UUIDSet => kv.2.encode)).flatten).drop
              consumed)
          (acc.AddSet (some set))) = _
    rw [hdec]
    show decodeSetsLoop restl.length
      ((kv.2.encode ++ (restl.map (fun kv => kv.2.encode)).flatten).drop
        (24 + 16 * kv.2.Intervals.length))
      (acc.AddSet (some kv.2)) = _
    have hdrop : (kv.2.encode ++ (restl.map (fun kv => kv.2.encode)).flatten).drop
        (24 + 16 * kv.2.Intervals.length)
        = (restl.map (fun kv => kv.2.encode)).flatten :=
      List.drop_left' (uuidSet_encode_length kv.2 hswf.1)
    have hlk : lookupSID acc.Sets (sidString kv.2.SID) = none := by
      rw [← hkey]
      exact hfresh kv (by simp)
    have haddset : acc.AddSet (some kv.2)
        = MysqlGTIDSet.mk (acc.Sets ++ [kv]) := by
      unfold MysqlGTIDSet.AddSet
      show (match lookupSID acc.Sets (sidString kv.2.SID) with
        | some o => MysqlGTIDSet.mk
            (updateSID acc.Sets (sidString kv.2.SID) (o.AddInterval kv.2.Intervals))
        | none => MysqlGTIDSet.mk (acc.Sets ++ [(sidString kv.2.SID, kv.2)])) = _
      rw [hlk, ← hkey]
    have hfresh' : ∀ w ∈ restl, lookupSID (MysqlGTIDSet.mk (acc.Sets ++ [kv])).Sets w.1 = none := by
      intro w hw
      show lookupSID (acc.Sets ++ [kv]) w.1 = none
      rw [lookupSID_append_none acc.Sets [kv] w.1 (hfresh w (by simp [hw]))]
      show (if kv.1 = w.1 then some kv.2 else none) = none
      have hne : ¬ kv.1 = w.1 := by
        intro hcontra
        exact absurd hcontra.symm (lookupSID_none_ne restl kv.1 hdisth w hw)
      rw [if_neg hne]
    rw [hdrop, haddset]
    rw [ih ⟨acc.Sets ++ [kv]⟩ (fun w hw => hwf w (by simp [hw])) hdistr hfresh']
    rw [List.append_assoc]
    rfl

/-- C4: decoding the binary encoding of a well-formed `MysqlGTIDSet` yields
a structurally equal set. -/
theorem claim_C4 (g : MysqlGTIDSet) (hwf : MysqlGTIDSetWF g) :
    DecodeMysqlGTIDSet g.Encode = .ok g := by
  obtain ⟨h1, h2, h3⟩ := hwf
  have hlen : g.Encode.length = 8 + ((g.Sets.map (fun kv => kv.2.encode)).flatten).length := by
    unfold MysqlGTIDSet.Encode
    rw [List.length_append]
    rfl
  have hdrop8 : List.drop 8 (u64le g.Sets.length
      ++ (g.Sets.map (fun kv => kv.2.encode)).flatten)
      = (g.Sets.map (fun kv => kv.2.encode)).flatten :=
    List.drop_left' rfl
  unfold DecodeMysqlGTIDSet MysqlGTIDSet.Encode
  rw [if_neg (by rw [← MysqlGTIDSet.Encode]; omega)]
  rw [readU64_u64le _ _ h3, hdrop8]
  rw [decodeSetsLoop_encode g.Sets ⟨[]⟩ h1 h2 (fun kv _ => rfl)]
  rw [List.nil_append]

theorem claim_C4_witness :
    DecodeMysqlGTIDSet
      (MysqlGTIDSet.Encode ⟨[(sidString (List.replicate 16 0),
        UUIDSet.mk (List.replicate 16 0) [⟨1, 5⟩, ⟨7, 10⟩])]⟩)
      = .ok ⟨[(sidString (List.replicate 16 0),
        UUIDSet.mk (List.replicate 16 0) [⟨1, 5⟩, ⟨7, 10⟩])]⟩ :=
  claim_C4 ⟨[(sidString (List.replicate 16 0),
    UUIDSet.mk (List.replicate 16 0) [⟨1, 5⟩, ⟨7, 10⟩])]⟩ (by decide)

/-- Value of one hexadecimal digit, either case. -/
def hexVal (c : Char) : Option Nat :=
  if 48 ≤ c.toNat ∧ c.toNat ≤ 57 then some (c.toNat - 48)
  else if 97 ≤ c.toNat ∧ c.toNat ≤ 102 then some (c.toNat - 87)
  else if 65 ≤ c.toNat ∧ c.toNat ≤ 70 then some (c.toNat - 55)
  else none

/-- Decode a hex string two digits per byte. -/
def parseHexPairs : List Char → Option (List Nat)
  | [] => some []
  | c1 :: c2 :: rest =>
    match hexVal c1, hexVal c2, parseHexPairs rest with
    | some h, some l, some bs => some ((h * 16 + l) :: bs)
    | _, _, _ => none
  | _ => none

/-- Modelled from the spec: `uuid.Parse` belongs to the external
`github.com/google/uuid` module, not to this repository.  It is modelled
here restricted to the canonical `xxxxxxxx-xxxx-xxxx-xxxx-xxxxxxxxxxxx`
form — hyphen-separated groups of 8, 4, 4, 4 and 12 hex digits of either
case decoding to the 16 bytes — which is the only form `UUID.String`
produces and hence the only form the round-trip under study feeds it. -/
def uuidParse (s : List Char) : Except Unit (List Nat) :=
  match splitChar '-' s with
  | [g1, g2, g3, g4, g5] =>
    if g1.length = 8 ∧ g2.length = 4 ∧ g3.length = 4 ∧ g4.length = 4
        ∧ g5.length = 12 then
      match parseHexPairs (g1 ++ g2 ++ g3 ++ g4 ++ g5) with
      | some bytes => .ok bytes
      | none => .error ()
    else .error ()
  | _ => .error ()

/-- The white-space class of Go `strings.TrimSpace`, on the ASCII range. -/
def isSpaceChar (c : Char) : Bool :=
  c = ' ' || c = '\t' || c = '\n' || c = '\x0b' || c = '\x0c' || c = '\r'

def trimSpace (s : List Char) : List Char :=
  ((s.dropWhile isSpaceChar).reverse.dropWhile isSpaceChar).reverse

/-- The interval loop of Go `ParseUUIDSet`: parse each piece, stopping at
the first error. -/
def parseIntervals : List (List Char) → Except (List Char) IntervalSlice
  | [] => .ok []
  | p :: rest =>
    match parseInterval p with
    | .error e => .error e
    | .ok iv =>
      match parseIntervals rest with
      | .error e => .error e
      | .ok ivs => .ok (iv :: ivs)

/-- Go `ParseUUIDSet`: trim, split on `':'`, require a UUID plus at least
one interval (the first two match arms are the `len(sep) < 2` check),
parse the UUID and the intervals, then normalize. -/
def ParseUUIDSet (str : List Char) : Except (List Char) UUIDSet :=
  match splitChar ':' (trimSpace str) with
  | [] => .error ("invalid GTID format, must UUID:interval[:interval]").toList
  | [_] => .error ("invalid GTID format, must UUID:interval[:interval]").toList
  | u :: ivstrs =>
    match uuidParse u with
    | .error _ => .error ("invalid uuid string").toList
    | .ok sid =>
      match parseIntervals ivstrs with
      | .error e => .error e
      | .ok ivs => .ok ⟨sid, IntervalSlice.Normalize ivs⟩

/-- Go `UUIDSet.Bytes`: the SID string followed by `":" + interval` for
each interval. -/
def UUIDSet.Bytes (s : UUIDSet) : List Char :=
  sidString s.SID ++ (s.Intervals.map (fun i => ':' :: Interval.String i)).flatten

/-- Go `UUIDSet.String`. -/
def UUIDSet.String (s : UUIDSet) : List Char := s.Bytes

/-- Byte-wise lexicographic `≤` on strings (the order of Go
`sort.Strings`). -/
def strLeB : List Char → List Char → Bool
  | [], _ => true
  | _ :: _, [] => false
  | a :: as, b :: bs =>
    if a.toNat < b.toNat then true
    else if b.toNat < a.toNat then false
    else strLeB as bs

def strLe (a b : List Char) : Prop := strLeB a b = true

instance : DecidableRel strLe :=
  fun a b => inferInstanceAs (Decidable (strLeB a b = true))

/-- Go `sort.Strings`. -/
def sortStrings (l : List (List Char)) : List (List Char) :=
  List.insertionSort strLe l

/-- The `sep`-buffer loop of Go `MysqlGTIDSet.String`: comma-join. -/
def joinComma : List (List Char) → List Char
  | [] => []
  | [s] => s
  | s :: rest => s ++ ',' :: joinComma rest

/-- Go `MysqlGTIDSet.String`: a single-entry set prints that entry
directly; otherwise the per-UUIDSet strings are sorted and comma-joined. -/
def MysqlGTIDSet.String (g : MysqlGTIDSet) : List Char :=
  match g.Sets with
  | [(_, s)] => UUIDSet.String s
  | _ => joinComma (sortStrings (g.Sets.map (fun kv => UUIDSet.String kv.2)))

/-- The loop of Go `ParseMysqlGTIDSet`: parse each comma piece and AddSet
it, stopping at the first error. -/
def parseSetsLoop : List (List Char) → MysqlGTIDSet → Except (List Char) MysqlGTIDSet
  | [], acc => .ok acc
  | p :: rest, acc =>
    match ParseUUIDSet p with
    | .error e => .error e
    | .ok set => parseSetsLoop rest (acc.AddSet (some set))

/-- Go `ParseMysqlGTIDSet`: the empty string is the empty set; otherwise
split on `','` and fold the pieces in with `AddSet`. -/
def ParseMysqlGTIDSet (str : List Char) : Except (List Char) MysqlGTIDSet :=
  if str = [] then .ok ⟨[]⟩
  else parseSetsLoop (splitChar ',' str) ⟨[]⟩

/-- Order of `UUIDSet`s by their printed strings (the order in which
`sort.Strings` leaves the per-set strings). -/
def setLe (u v : UUIDSet) : Prop := strLe (UUIDSet.String u) (UUIDSet.String v)

instance : DecidableRel setLe :=
  fun u v => inferInstanceAs
    (Decidable (strLeB (UUIDSet.String u) (UUIDSet.String v) = true))

/-- Well-formedness of a `UUIDSet` for the text round trip: 16 SID bytes,
at least one interval, normalized intervals, nonnegative starts and
in-range stops (what the parser itself produces). -/
def UUIDSetWFS (s : UUIDSet) : Prop :=
  s.SID.length = 16 ∧ (∀ b ∈ s.SID, b < 256) ∧ s.Intervals ≠ []
  ∧ IntervalSlice.IsNormalized s.Intervals
  ∧ ∀ i ∈ s.Intervals, 0 ≤ i.start ∧ i.stop ≤ 2 ^ 63 - 1

instance (s : UUIDSet) : Decidable (UUIDSetWFS s) :=
  inferInstanceAs (Decidable (_ ∧ _ ∧ _ ∧ _ ∧ _))

/-- Well-formedness of a `MysqlGTIDSet` for the text round trip: every
entry keyed by its SID string, entries well formed, keys distinct. -/
def MysqlGTIDSetWFS (g : MysqlGTIDSet) : Prop :=
  (∀ kv ∈ g.Sets, kv.1 = sidString kv.2.SID ∧ UUIDSetWFS kv.2)
  ∧ keysDistinct g.Sets = true

instance (g : MysqlGTIDSet) : Decidable (MysqlGTIDSetWFS g) :=
  inferInstanceAs (Decidable (_ ∧ _))

example :
    (ParseUUIDSet ("3E11FA47-71CA-11E1-9E33-C80AA9429562:1-5:10").toList).map
      (fun u => u.Intervals) = .ok [⟨1, 6⟩, ⟨10, 11⟩] := by decide

example :
    (ParseUUIDSet ("3E11FA47-71CA-11E1-9E33-C80AA9429562:1-5:10").toList).map
      UUIDSet.String
    = .ok ("3e11fa47-71ca-11e1-9e33-c80aa9429562:1-5:10").toList := by decide

example :
    (ParseMysqlGTIDSet ("00000000-0000-0000-0000-00000000000a:5,00000000-0000-0000-0000-000000000001:2-3").toList).map
      MysqlGTIDSet.String
    = .ok ("00000000-0000-0000-0000-000000000001:2-3,00000000-0000-0000-0000-00000000000a:5").toList := by
  decide

example : trimSpace (" 1-5 ").toList = ("1-5").toList := by decide


theorem hexVal_hexDigitChar : ∀ n : Nat, n < 16 →
    hexVal (hexDigitChar n) = some n := by decide

theorem hexDigitChar_classes : ∀ n : Nat, n < 16 →
    hexDigitChar n ≠ '-' ∧ hexDigitChar n ≠ ':' ∧ hexDigitChar n ≠ ','
      ∧ isSpaceChar (hexDigitChar n) = false := by decide

theorem digit_ne_colon {c : Char} (h : c.isDigit = true) : c ≠ ':' := by
  rintro rfl
  exact absurd h (by decide)

theorem digit_ne_comma {c : Char} (h : c.isDigit = true) : c ≠ ',' := by
  rintro rfl
  exact absurd h (by decide)

theorem digit_not_space {c : Char} (h : c.isDigit = true) :
    isSpaceChar c = false := by
  cases hs : isSpaceChar c
  · rfl
  · exfalso
    simp only [isSpaceChar, Bool.or_eq_true, decide_eq_true_eq] at hs
    rcases hs with ((((rfl | rfl) | rfl) | rfl) | rfl) | rfl <;>
      exact absurd h (by decide)

theorem hexBytes_chars (l : List Nat) (hl : ∀ b ∈ l, b < 256) :
    ∀ c ∈ hexBytes l,
      c ≠ '-' ∧ c ≠ ':' ∧ c ≠ ',' ∧ isSpaceChar c = false := by
  induction l with
  | nil => intro c hc; exact absurd hc (by simp [hexBytes])
  | cons b bs ih =>
    intro c hc
    have hb : b < 256 := hl b (by simp)
    have hc' : c ∈ byteHex b ++ hexBytes bs := hc
    rcases List.mem_append.mp hc' with hcb | hcs
    · unfold byteHex at hcb
      rcases List.mem_cons.mp hcb with rfl | hcb
      · exact hexDigitChar_classes (b / 16) (by omega)
      · rcases List.mem_cons.mp hcb with rfl | hcb
        · exact hexDigitChar_classes (b % 16) (by omega)
        · exact absurd hcb (by simp)
    · exact ih (fun x hx => hl x (by simp [hx])) c hcs

theorem hexBytes_length (l : List Nat) : (hexBytes l).length = 2 * l.length := by
  induction l with
  | nil => rfl
  | cons b bs ih =>
    show (byteHex b ++ hexBytes bs).length = 2 * (bs.length + 1)
    rw [List.length_append, ih]
    show 2 + 2 * bs.length = 2 * (bs.length + 1)
    omega

theorem sidString_chars (sid : List Nat) (hb : ∀ b ∈ sid, b < 256) :
    ∀ c ∈ sidString sid, c ≠ ':' ∧ c ≠ ',' ∧ isSpaceChar c = false := by
  intro c hc
  have hdash : ('-' : Char) ≠ ':' ∧ ('-' : Char) ≠ ','
      ∧ isSpaceChar '-' = false := by decide
  have hchunk : ∀ l : List Nat, (∀ x ∈ l, x ∈ sid) → c ∈ hexBytes l →
      c ≠ ':' ∧ c ≠ ',' ∧ isSpaceChar c = false := by
    intro l hsub hcl
    have := hexBytes_chars l (fun x hx => hb x (hsub x hx)) c hcl
    exact ⟨this.2.1, this.2.2.1, this.2.2.2⟩
  unfold sidString at hc
  rcases List.mem_append.mp hc with hc | h
  · rcases List.mem_append.mp hc with hc | h
    · rcases List.mem_append.mp hc with hc | h
      · rcases List.mem_append.mp hc with h | h
        · exact hchunk _ (fun x hx => List.mem_of_mem_take hx) h
        · rcases List.mem_cons.mp h with rfl | h
          · exact hdash
          · exact hchunk _
              (fun x hx => List.mem_of_mem_drop (List.mem_of_mem_take hx)) h
      · rcases List.mem_cons.mp h with rfl | h
        · exact hdash
        · exact hchunk _
            (fun x hx => List.mem_of_mem_drop (List.mem_of_mem_take hx)) h
    · rcases List.mem_cons.mp h with rfl | h
      · exact hdash
      · exact hchunk _
          (fun x hx => List.mem_of_mem_drop (List.mem_of_mem_take hx)) h
  · rcases List.mem_cons.mp h with rfl | h
    · exact hdash
    · exact hchunk _ (fun x hx => List.mem_of_mem_drop hx) h

theorem parseHexPairs_byteHex (b : Nat) (hb : b < 256) (rest : List Char) :
    parseHexPairs (byteHex b ++ rest)
      = (parseHexPairs rest).map (fun bs => b :: bs) := by
  have h1 := hexVal_hexDigitChar (b / 16) (by omega)
  have h2 := hexVal_hexDigitChar (b % 16) (by omega)
  show (match hexVal (hexDigitChar (b / 16)), hexVal (hexDigitChar (b % 16)),
      parseHexPairs rest with
    | some h, some l, some bs => some ((h * 16 + l) :: bs)
    | _, _, _ => none) = _
  rw [h1, h2]
  cases parseHexPairs rest with
  | none => rfl
  | some bs =>
    show some ((b / 16 * 16 + b % 16) :: bs) = some (b :: bs)
    have : b / 16 * 16 + b % 16 = b := by omega
    rw [this]

theorem parseHexPairs_hexBytes (l : List Nat) (hl : ∀ b ∈ l, b < 256)
    (rest : List Char) :
    parseHexPairs (hexBytes l ++ rest)
      = (parseHexPairs rest).map (fun bs => l ++ bs) := by
  induction l with
  | nil =>
    show parseHexPairs rest = (parseHexPairs rest).map (fun bs => [] ++ bs)
    cases parseHexPairs rest <;> rfl
  | cons b bs ih =>
    have hb : b < 256 := hl b (by simp)
    show parseHexPairs ((byteHex b ++ hexBytes bs) ++ rest) = _
    rw [List.append_assoc, parseHexPairs_byteHex b hb,
      ih (fun x hx => hl x (by simp [hx]))]
    cases parseHexPairs rest <;> rfl

/-- Splitting a separator-free head followed by separator-prefixed pieces
recovers the pieces. -/
theorem splitChar_chain {α : Type} (c : Char) (f : α → List Char) :
    ∀ (l : List α) (a : List Char),
    (∀ c' ∈ a, c' ≠ c) → (∀ x ∈ l, ∀ c' ∈ f x, c' ≠ c) →
    splitChar c (a ++ (l.map (fun x => c :: f x)).flatten) = a :: l.map f := by
  intro l
  induction l with
  | nil =>
    intro a ha _
    show splitChar c (a ++ []) = [a]
    rw [List.append_nil]
    exact splitChar_no_sep c a ha
  | cons x xs ih =>
    intro a ha hl
    show splitChar c (a ++ ((c :: f x) ++ (xs.map (fun y => c :: f y)).flatten))
      = a :: f x :: xs.map f
    have hstep : a ++ ((c :: f x) ++ (xs.map (fun y => c :: f y)).flatten)
        = a ++ c :: (f x ++ (xs.map (fun y => c :: f y)).flatten) := by
      simp
    rw [hstep, splitChar_append c a _ ha,
      ih (f x) (hl x (by simp)) (fun y hy => hl y (by simp [hy]))]

theorem dropWhile_no_space (s : List Char)
    (h : ∀ c ∈ s, isSpaceChar c = false) :
    s.dropWhile isSpaceChar = s := by
  cases s with
  | nil => rfl
  | cons x xs => simp [List.dropWhile, h x (by simp)]

theorem trimSpace_id (s : List Char) (h : ∀ c ∈ s, isSpaceChar c = false) :
    trimSpace s = s := by
  unfold trimSpace
  rw [dropWhile_no_space s h,
    dropWhile_no_space s.reverse (fun c hc => h c (by simpa using hc)),
    List.reverse_reverse]

/-- Round trip of the canonical UUID string through `uuidParse`. -/
theorem uuidParse_sidString (sid : List Nat) (h16 : sid.length = 16)
    (hb : ∀ b ∈ sid, b < 256) :
    uuidParse (sidString sid) = .ok sid := by
  have hA : ∀ c ∈ hexBytes (sid.take 4), c ≠ '-' := fun c hc =>
    (hexBytes_chars _ (fun x hx => hb x (List.mem_of_mem_take hx)) c hc).1
  have hB : ∀ c ∈ hexBytes ((sid.drop 4).take 2), c ≠ '-' := fun c hc =>
    (hexBytes_chars _
      (fun x hx => hb x (List.mem_of_mem_drop (List.mem_of_mem_take hx))) c hc).1
  have hC : ∀ c ∈ hexBytes ((sid.drop 6).take 2), c ≠ '-' := fun c hc =>
    (hexBytes_chars _
      (fun x hx => hb x (List.mem_of_mem_drop (List.mem_of_mem_take hx))) c hc).1
  have hD : ∀ c ∈ hexBytes ((sid.drop 8).take 2), c ≠ '-' := fun c hc =>
    (hexBytes_chars _
      (fun x hx => hb x (List.mem_of_mem_drop (List.mem_of_mem_take hx))) c hc).1
  have hE : ∀ c ∈ hexBytes (sid.drop 10), c ≠ '-' := fun c hc =>
    (hexBytes_chars _ (fun x hx => hb x (List.mem_of_mem_drop hx)) c hc).1
  have hform : sidString sid
      = hexBytes (sid.take 4) ++ '-' :: (hexBytes ((sid.drop 4).take 2)
        ++ '-' :: (hexBytes ((sid.drop 6).take 2)
        ++ '-' :: (hexBytes ((sid.drop 8).take 2)
        ++ '-' :: hexBytes (sid.drop 10)))) := by
    unfold sidString
    simp [List.append_assoc]
  rw [hform]
  unfold uuidParse
  rw [splitChar_append '-' _ _ hA, splitChar_append '-' _ _ hB,
    splitChar_append '-' _ _ hC, splitChar_append '-' _ _ hD,
    splitChar_no_sep '-' _ hE]
  have hlen : (hexBytes (sid.take 4)).length = 8
      ∧ (hexBytes ((sid.drop 4).take 2)).length = 4
      ∧ (hexBytes ((sid.drop 6).take 2)).length = 4
      ∧ (hexBytes ((sid.drop 8).take 2)).length = 4
      ∧ (hexBytes (sid.drop 10)).length = 12 := by
    refine ⟨?_, ?_, ?_, ?_, ?_⟩ <;>
      simp [hexBytes_length, List.length_take, List.length_drop, h16]
  show (if _ then _ else _) = _
  rw [if_pos hlen]
  have hjoin : hexBytes (sid.take 4) ++ hexBytes ((sid.drop 4).take 2)
      ++ hexBytes ((sid.drop 6).take 2) ++ hexBytes ((sid.drop 8).take 2)
      ++ hexBytes (sid.drop 10) = hexBytes sid := by
    unfold hexBytes
    rw [← List.flatten_append, ← List.flatten_append, ← List.flatten_append,
      ← List.flatten_append, ← List.map_append, ← List.map_append,
      ← List.map_append, ← List.map_append]
    have hsid : sid.take 4 ++ (sid.drop 4).take 2 ++ (sid.drop 6).take 2
        ++ (sid.drop 8).take 2 ++ sid.drop 10 = sid := by
      have d46 : (sid.drop 4).drop 2 = sid.drop 6 := by
        rw [List.drop_drop]
      have d68 : (sid.drop 6).drop 2 = sid.drop 8 := by
        rw [List.drop_drop]
      have d810 : (sid.drop 8).drop 2 = sid.drop 10 := by
        rw [List.drop_drop]
      rw [List.append_assoc, List.append_assoc, List.append_assoc,
        ← d810, List.take_append_drop, ← d68, List.take_append_drop,
        ← d46, List.take_append_drop, List.take_append_drop]
    rw [hsid]
  have hph : parseHexPairs (hexBytes sid) = some sid := by
    have hx := parseHexPairs_hexBytes sid hb []
    rw [List.append_nil] at hx
    rw [hx]
    show Option.map (fun bs => sid ++ bs) (some []) = some sid
    simp
  rw [hjoin, hph]


theorem intervalString_chars (i : Interval) (h1 : 0 ≤ i.start)
    (h2 : i.start < i.stop) (h3 : i.stop ≤ 2 ^ 63 - 1) :
    ∀ c ∈ Interval.String i, c ≠ ':' ∧ c ≠ ',' ∧ isSpaceChar c = false := by
  intro c hc
  have hdash : ('-' : Char) ≠ ':' ∧ ('-' : Char) ≠ ','
      ∧ isSpaceChar '-' = false := by decide
  have hdigit : ∀ d : Char, d.isDigit = true →
      d ≠ ':' ∧ d ≠ ',' ∧ isSpaceChar d = false :=
    fun d hd => ⟨digit_ne_colon hd, digit_ne_comma hd, digit_not_space hd⟩
  unfold Interval.String at hc
  by_cases hone : i.stop = wrap64 (i.start + 1)
  · rw [if_pos hone] at hc
    unfold intStr at hc
    rw [if_neg (by omega)] at hc
    exact hdigit c (natStr_all_digit _ c hc)
  · rw [if_neg hone] at hc
    have hw2 : wrap64 (i.stop - 1) = i.stop - 1 := wrap64_eq (by omega) (by omega)
    rw [hw2] at hc
    unfold intStr at hc
    rw [if_neg (by omega), if_neg (by omega)] at hc
    rcases List.mem_append.mp hc with h | h
    · exact hdigit c (natStr_all_digit _ c h)
    · rcases List.mem_cons.mp h with rfl | h
      · exact hdash
      · exact hdigit c (natStr_all_digit _ c h)

theorem parseIntervals_map (ivs : IntervalSlice)
    (h : ∀ i ∈ ivs, 0 ≤ i.start ∧ i.start < i.stop ∧ i.stop ≤ 2 ^ 63 - 1) :
    parseIntervals (ivs.map Interval.String) = .ok ivs := by
  induction ivs with
  | nil => rfl
  | cons iv rest ih =>
    obtain ⟨h1, h2, h3⟩ := h iv (by simp)
    show (match parseInterval (Interval.String iv) with
      | .error e => .error e
      | .ok iv' =>
        match parseIntervals (rest.map Interval.String) with
        | .error e => .error e
        | .ok ivs' => .ok (iv' :: ivs')) = Except.ok (iv :: rest)
    rw [parseInterval_roundtrip iv h1 h2 h3,
      ih (fun i hi => h i (by simp [hi]))]

theorem UUIDSetString_chars (u : UUIDSet) (hwf : UUIDSetWFS u) :
    ∀ c ∈ UUIDSet.String u, c ≠ ',' ∧ isSpaceChar c = false := by
  obtain ⟨h16, hb, hne, hnorm, hrange⟩ := hwf
  intro c hc
  have hc' : c ∈ sidString u.SID
      ++ (u.Intervals.map (fun i => ':' :: Interval.String i)).flatten := hc
  rcases List.mem_append.mp hc' with h | h
  · have := sidString_chars u.SID hb c h
    exact ⟨this.2.1, this.2.2⟩
  · rw [List.mem_flatten] at h
    obtain ⟨l, hl, hcl⟩ := h
    rw [List.mem_map] at hl
    obtain ⟨i, hi, rfl⟩ := hl
    rcases List.mem_cons.mp hcl with rfl | hcl
    · exact (by decide : (':' : Char) ≠ ',' ∧ isSpaceChar ':' = false)
    · obtain ⟨hr1, hr3⟩ := hrange i hi
      have := intervalString_chars i hr1 (hnorm.1 i hi) hr3 c hcl
      exact ⟨this.2.1, this.2.2⟩

/-- The per-set round trip: parsing a well-formed `UUIDSet`'s printed form
returns the same set. -/
theorem ParseUUIDSet_roundtrip (u : UUIDSet) (hwf : UUIDSetWFS u) :
    ParseUUIDSet (UUIDSet.String u) = .ok u := by
  obtain ⟨h16, hb, hne, hnorm, hrange⟩ := hwf
  have htrim : trimSpace (UUIDSet.String u) = UUIDSet.String u :=
    trimSpace_id _
      (fun c hc => (UUIDSetString_chars u ⟨h16, hb, hne, hnorm, hrange⟩ c hc).2)
  have hsplit : splitChar ':' (UUIDSet.String u)
      = sidString u.SID :: u.Intervals.map Interval.String :=
    splitChar_chain ':' Interval.String u.Intervals (sidString u.SID)
      (fun c hc => (sidString_chars u.SID hb c hc).1)
      (fun i hi c hc =>
        (intervalString_chars i (hrange i hi).1 (hnorm.1 i hi)
          (hrange i hi).2 c hc).1)
  unfold ParseUUIDSet
  rw [htrim, hsplit]
  cases hivs : u.Intervals with
  | nil => exact absurd hivs hne
  | cons iv0 ivrest =>
    rw [hivs] at hnorm hrange
    show (match uuidParse (sidString u.SID) with
      | .error _ => .error ("invalid uuid string").toList
      | .ok sid =>
        match parseIntervals
            (Interval.String iv0 :: ivrest.map Interval.String) with
        | .error e => .error e
        | .ok ivs => .ok ⟨sid, IntervalSlice.Normalize ivs⟩)
      = Except.ok u
    rw [uuidParse_sidString u.SID h16 hb]
    have hpi : parseIntervals (Interval.String iv0 :: ivrest.map Interval.String)
        = .ok (iv0 :: ivrest) :=
      parseIntervals_map (iv0 :: ivrest)
        (fun i hi => ⟨(hrange i hi).1, hnorm.1 i hi, (hrange i hi).2⟩)
    rw [hpi]
    have hn : IntervalSlice.Normalize (iv0 :: ivrest) = iv0 :: ivrest :=
      IntervalSlice.Normalize_of_isNorm hnorm
    show Except.ok (⟨u.SID, IntervalSlice.Normalize (iv0 :: ivrest)⟩ : UUIDSet)
      = Except.ok u
    rw [hn, ← hivs]


instance : IsTotal (List Char) strLe := by
  constructor
  intro a
  induction a with
  | nil => intro b; exact Or.inl rfl
  | cons x xs ih =>
    intro b
    cases b with
    | nil => exact Or.inr rfl
    | cons y ys =>
      by_cases hxy : x.toNat < y.toNat
      · left
        show (if x.toNat < y.toNat then true
          else if y.toNat < x.toNat then false else strLeB xs ys) = true
        rw [if_pos hxy]
      · by_cases hyx : y.toNat < x.toNat
        · right
          show (if y.toNat < x.toNat then true
            else if x.toNat < y.toNat then false else strLeB ys xs) = true
          rw [if_pos hyx]
        · rcases ih ys with h | h
          · left
            show (if x.toNat < y.toNat then true
              else if y.toNat < x.toNat then false else strLeB xs ys) = true
            rw [if_neg hxy, if_neg hyx]
            exact h
          · right
            show (if y.toNat < x.toNat then true
              else if x.toNat < y.toNat then false else strLeB ys xs) = true
            rw [if_neg hyx, if_neg hxy]
            exact h

instance : IsTrans (List Char) strLe := by
  constructor
  intro a
  induction a with
  | nil => intro b c _ _; exact rfl
  | cons x xs ih =>
    intro b c hab hbc
    cases b with
    | nil => exact absurd hab (by simp [strLe, strLeB])
    | cons y ys =>
      cases c with
      | nil => exact absurd hbc (by simp [strLe, strLeB])
      | cons z zs =>
        have hab' : (if x.toNat < y.toNat then true
            else if y.toNat < x.toNat then false else strLeB xs ys) = true := hab
        have hbc' : (if y.toNat < z.toNat then true
            else if z.toNat < y.toNat then false else strLeB ys zs) = true := hbc
        show (if x.toNat < z.toNat then true
          else if z.toNat < x.toNat then false else strLeB xs zs) = true
        by_cases hxz : x.toNat < z.toNat
        · rw [if_pos hxz]
        · rw [if_neg hxz]
          by_cases hxy : x.toNat < y.toNat <;> by_cases hyz : y.toNat < z.toNat
          · exact absurd (Nat.lt_trans hxy hyz) hxz
          · rw [if_neg hyz] at hbc'
            by_cases hzy : z.toNat < y.toNat
            · rw [if_pos hzy] at hbc'
              exact absurd hbc' (by simp)
            · exact absurd (by omega : x.toNat < z.toNat) hxz
          · rw [if_neg hxy] at hab'
            by_cases hyx : y.toNat < x.toNat
            · rw [if_pos hyx] at hab'
              exact absurd hab' (by simp)
            · exact absurd (by omega : x.toNat < z.toNat) hxz
          · rw [if_neg hxy] at hab'
            rw [if_neg hyz] at hbc'
            by_cases hyx : y.toNat < x.toNat
            · rw [if_pos hyx] at hab'
              exact absurd hab' (by simp)
            rw [if_neg hyx] at hab'
            by_cases hzy : z.toNat < y.toNat
            · rw [if_pos hzy] at hbc'
              exact absurd hbc' (by simp)
            rw [if_neg hzy] at hbc'
            rw [if_neg (by omega : ¬ z.toNat < x.toNat)]
            exact ih ys zs hab' hbc'

theorem map_orderedInsert (a : UUIDSet) :
    ∀ l : List UUIDSet,
    (List.orderedInsert setLe a l).map UUIDSet.String
      = List.orderedInsert strLe (UUIDSet.String a) (l.map UUIDSet.String) := by
  intro l
  induction l with
  | nil => rfl
  | cons b bs ih =>
    by_cases h : setLe a b
    · have h' : strLe (UUIDSet.String a) (UUIDSet.String b) := h
      simp [List.orderedInsert, h, h']
    · have h' : ¬ strLe (UUIDSet.String a) (UUIDSet.String b) := h
      simp [List.orderedInsert, h, h', ih]

theorem map_insertionSort :
    ∀ l : List UUIDSet,
    (List.insertionSort setLe l).map UUIDSet.String
      = sortStrings (l.map UUIDSet.String) := by
  intro l
  induction l with
  | nil => rfl
  | cons a l ih =>
    show (List.orderedInsert setLe a (List.insertionSort setLe l)).map UUIDSet.String
      = List.orderedInsert strLe (UUIDSet.String a)
          (List.insertionSort strLe (l.map UUIDSet.String))
    rw [map_orderedInsert, ih]
    rfl

theorem lookupSID_eq_none_iff (l : List (List Char × UUIDSet)) (key : List Char) :
    lookupSID l key = none ↔ ∀ kv ∈ l, kv.1 ≠ key := by
  induction l with
  | nil => simp [lookupSID]
  | cons kv rest ih =>
    show (if kv.1 = key then some kv.2 else lookupSID rest key) = none ↔ _
    by_cases hk : kv.1 = key
    · rw [if_pos hk]
      constructor
      · intro h
        exact absurd h (by simp)
      · intro hall
        exact absurd hk (hall kv (by simp))
    · rw [if_neg hk, ih]
      constructor
      · intro h kv' hkv'
        rcases List.mem_cons.mp hkv' with rfl | h'
        · exact hk
        · exact h kv' h'
      · intro hall kv' hkv'
        exact hall kv' (List.mem_cons_of_mem _ hkv')

theorem keysDistinct_nodup : ∀ l : List (List Char × UUIDSet),
    keysDistinct l = true → (l.map Prod.fst).Nodup := by
  intro l
  induction l with
  | nil => intro _; simp
  | cons kv rest ih =>
    intro h
    have h' : (decide (lookupSID rest kv.1 = none) && keysDistinct rest) = true := h
    simp only [Bool.and_eq_true, decide_eq_true_eq] at h'
    obtain ⟨hnone, hrest⟩ := h'
    show ((kv.1 :: rest.map Prod.fst) : List (List Char)).Nodup
    rw [List.nodup_cons]
    refine ⟨?_, ih hrest⟩
    intro hmem
    rw [List.mem_map] at hmem
    obtain ⟨kv', hkv', heq⟩ := hmem
    exact lookupSID_none_ne rest kv.1 hnone kv' hkv' heq

theorem parseSetsLoop_ok : ∀ (us : List UUIDSet) (acc : MysqlGTIDSet),
    (∀ u ∈ us, UUIDSetWFS u) →
    (us.map fun w => sidString w.SID).Nodup →
    (∀ u ∈ us, lookupSID acc.Sets (sidString u.SID) = none) →
    parseSetsLoop (us.map UUIDSet.String) acc
      = .ok ⟨acc.Sets ++ us.map (fun w => (sidString w.SID, w))⟩ := by
  intro us
  induction us with
  | nil =>
    intro acc _ _ _
    show Except.ok acc = Except.ok ⟨acc.Sets ++ []⟩
    rw [List.append_nil]
  | cons u us ih =>
    intro acc hwf hnodup hfresh
    show (match ParseUUIDSet (UUIDSet.String u) with
      | .error e => .error e
      | .ok set => parseSetsLoop (us.map UUIDSet.String) (acc.AddSet (some set)))
      = Except.ok ⟨acc.Sets ++ (u :: us).map (fun w => (sidString w.SID, w))⟩
    rw [ParseUUIDSet_roundtrip u (hwf u (by simp))]
    show parseSetsLoop (us.map UUIDSet.String) (acc.AddSet (some u))
      = Except.ok ⟨acc.Sets ++ (u :: us).map (fun w => (sidString w.SID, w))⟩
    have hadd : acc.AddSet (some u) = ⟨acc.Sets ++ [(sidString u.SID, u)]⟩ := by
      show (match lookupSID acc.Sets (sidString u.SID) with
        | some o => (⟨updateSID acc.Sets (sidString u.SID)
            (o.AddInterval u.Intervals)⟩ : MysqlGTIDSet)
        | none => (⟨acc.Sets ++ [(sidString u.SID, u)]⟩ : MysqlGTIDSet))
        = (⟨acc.Sets ++ [(sidString u.SID, u)]⟩ : MysqlGTIDSet)
      rw [hfresh u (by simp)]
    rw [hadd]
    have hfresh' : ∀ v ∈ us,
        lookupSID (acc.Sets ++ [(sidString u.SID, u)]) (sidString v.SID) = none := by
      intro v hv
      rw [lookupSID_append_none acc.Sets [(sidString u.SID, u)] (sidString v.SID)
        (hfresh v (by simp [hv]))]
      have hne : ¬ sidString u.SID = sidString v.SID := by
        intro he
        have hm : sidString v.SID ∈ us.map (fun w => sidString w.SID) :=
          List.mem_map_of_mem _ hv
        rw [← he] at hm
        exact (List.nodup_cons.mp hnodup).1 hm
      show (if sidString u.SID = sidString v.SID then some u
        else lookupSID [] (sidString v.SID)) = none
      rw [if_neg hne]
      rfl
    have hstep := ih (MysqlGTIDSet.mk (acc.Sets ++ [(sidString u.SID, u)]))
      (fun v hv => hwf v (by simp [hv]))
      (List.nodup_cons.mp hnodup).2 hfresh'
    rw [hstep]
    show Except.ok (⟨(acc.Sets ++ [(sidString u.SID, u)])
        ++ us.map (fun w => (sidString w.SID, w))⟩ : MysqlGTIDSet)
      = Except.ok (⟨acc.Sets ++ ((sidString u.SID, u)
        :: us.map (fun w => (sidString w.SID, w)))⟩ : MysqlGTIDSet)
    rw [List.append_assoc]
    rfl


theorem sidString_length (sid : List Nat) (h16 : sid.length = 16) :
    (sidString sid).length = 36 := by
  simp [sidString, List.length_append, hexBytes_length, List.length_take,
    List.length_drop, h16]

theorem uuidSetString_ne_nil (u : UUIDSet) (h16 : u.SID.length = 16) :
    UUIDSet.String u ≠ [] := by
  intro h0
  have h2 : (UUIDSet.String u).length = (sidString u.SID).length
      + ((u.Intervals.map (fun i => ':' :: Interval.String i)).flatten).length := by
    show (sidString u.SID ++ _).length = _
    rw [List.length_append]
  rw [h0, sidString_length u.SID h16] at h2
  have hz : ([] : List Char).length = 0 := rfl
  rw [hz] at h2
  omega

theorem joinComma_ne_nil : ∀ (L : List (List Char)), L ≠ [] →
    (∀ s ∈ L, s ≠ []) → joinComma L ≠ [] := by
  intro L hL hs
  cases L with
  | nil => exact absurd rfl hL
  | cons s rest =>
    cases rest with
    | nil => exact hs s (by simp)
    | cons t r' =>
      show s ++ ',' :: joinComma (t :: r') ≠ []
      intro h0
      have hlen := congrArg List.length h0
      rw [List.length_append, List.length_cons] at hlen
      have hz : ([] : List Char).length = 0 := rfl
      rw [hz] at hlen
      omega

theorem splitChar_joinComma : ∀ (L : List (List Char)), L ≠ [] →
    (∀ s ∈ L, ∀ c ∈ s, c ≠ ',') → splitChar ',' (joinComma L) = L := by
  intro L
  induction L with
  | nil => intro h _; exact absurd rfl h
  | cons s rest ih =>
    intro _ hno
    cases rest with
    | nil =>
      show splitChar ',' s = [s]
      exact splitChar_no_sep ',' s (hno s (by simp))
    | cons t r' =>
      show splitChar ',' (s ++ ',' :: joinComma (t :: r')) = s :: t :: r'
      rw [splitChar_append ',' s _ (hno s (by simp)),
        ih (by simp) (fun s' hs' c hc => hno s' (by simp [hs']) c hc)]

theorem string_of_pairs (us : List UUIDSet) (hlen : 2 ≤ us.length) :
    MysqlGTIDSet.String ⟨us.map (fun w => (sidString w.SID, w))⟩
      = joinComma (sortStrings (us.map UUIDSet.String)) := by
  cases us with
  | nil => exact absurd hlen (by simp)
  | cons u0 us1 =>
    cases us1 with
    | nil => exact absurd hlen (by simp)
    | cons u1 us2 =>
      show joinComma (sortStrings
        (((u0 :: u1 :: us2).map (fun w => (sidString w.SID, w))).map
          (fun kv => UUIDSet.String kv.2)))
        = joinComma (sortStrings ((u0 :: u1 :: us2).map UUIDSet.String))
      rw [List.map_map]
      rfl

/-- The C5 counterexample value: one UUIDSet whose interval `[2, 2)` is
empty (`Stop ≤ Start`), a state the exported `Intervals` field admits. -/
def gC5bad : MysqlGTIDSet :=
  ⟨[(sidString (List.replicate 16 0),
    ⟨List.replicate 16 0, [⟨2, 2⟩]⟩)]⟩

set_option maxRecDepth 8192 in
/-- C5 counterexample: the printed form of `gC5bad` is
`"00000000-0000-0000-0000-000000000000:2-1"`, whose interval piece `"2-1"`
fails `parseInterval`, so re-parsing the printed form cannot reproduce the
printed form: the round trip of the claim does not even reach a value. -/
theorem claim_C5_cex :
    (ParseMysqlGTIDSet (MysqlGTIDSet.String gC5bad)).map MysqlGTIDSet.String
      ≠ .ok (MysqlGTIDSet.String gC5bad) := by decide

/-- C5 (amended): for well-formed sets — every entry keyed by its SID
string, 16-byte SIDs, nonempty normalized interval lists with nonnegative
starts and in-range stops, distinct keys (exactly the states the parser
and decoder themselves build) — re-parsing the canonical printed form
succeeds and prints the same string.  The original claim, quantified over
every MysqlGTIDSet, fails for empty intervals (see the counterexample). -/
theorem claim_C5 (g : MysqlGTIDSet) (hwf : MysqlGTIDSetWFS g) :
    (ParseMysqlGTIDSet (MysqlGTIDSet.String g)).map MysqlGTIDSet.String
      = .ok (MysqlGTIDSet.String g) := by
  obtain ⟨hkv, hdist⟩ := hwf
  cases hgs : g.Sets with
  | nil =>
    have hstr : MysqlGTIDSet.String g = [] := by
      unfold MysqlGTIDSet.String
      rw [hgs]
      rfl
    rw [hstr]
    rfl
  | cons kv0 rest =>
    have hkv' : ∀ kv ∈ kv0 :: rest, kv.1 = sidString kv.2.SID ∧ UUIDSetWFS kv.2 := by
      rw [← hgs]
      exact hkv
    have hdist' : keysDistinct (kv0 :: rest) = true := by
      rw [← hgs]
      exact hdist
    cases rest with
    | nil =>
      obtain ⟨k0, u0⟩ := kv0
      obtain ⟨hk0, hwfs0⟩ := hkv' (k0, u0) (by simp)
      have hstr : MysqlGTIDSet.String g = UUIDSet.String u0 := by
        unfold MysqlGTIDSet.String
        rw [hgs]
      have hne0 : UUIDSet.String u0 ≠ [] := uuidSetString_ne_nil u0 hwfs0.1
      have hsplit1 : splitChar ',' (UUIDSet.String u0) = [UUIDSet.String u0] :=
        splitChar_no_sep ',' _ (fun c hc => (UUIDSetString_chars u0 hwfs0 c hc).1)
      have hloop : parseSetsLoop [UUIDSet.String u0] ⟨[]⟩
          = .ok ⟨[] ++ [u0].map (fun w => (sidString w.SID, w))⟩ :=
        parseSetsLoop_ok [u0] ⟨[]⟩
          (fun v hv => by
            rw [List.mem_singleton] at hv
            rw [hv]
            exact hwfs0)
          (by simp) (fun v hv => rfl)
      rw [hstr]
      unfold ParseMysqlGTIDSet
      rw [if_neg hne0, hsplit1, hloop]
      rfl
    | cons kv1 rest' =>
      have hwfs : ∀ u ∈ (kv0 :: kv1 :: rest').map Prod.snd, UUIDSetWFS u := by
        intro u hu
        rw [List.mem_map] at hu
        obtain ⟨kv, hkvm, rfl⟩ := hu
        exact (hkv' kv hkvm).2
      have husid0 : (((kv0 :: kv1 :: rest').map Prod.snd).map
          (fun w => sidString w.SID)).Nodup := by
        have h1 : ((kv0 :: kv1 :: rest').map Prod.fst).Nodup :=
          keysDistinct_nodup _ hdist'
        have h2 : (kv0 :: kv1 :: rest').map Prod.fst
            = ((kv0 :: kv1 :: rest').map Prod.snd).map
                (fun w => sidString w.SID) := by
          rw [List.map_map]
          exact List.map_congr_left (fun kv hm => (hkv' kv hm).1)
        rw [← h2]
        exact h1
      have hperm : (List.insertionSort setLe
            ((kv0 :: kv1 :: rest').map Prod.snd)).Perm
          ((kv0 :: kv1 :: rest').map Prod.snd) :=
        List.perm_insertionSort setLe _
      have hwfS : ∀ u ∈ List.insertionSort setLe
          ((kv0 :: kv1 :: rest').map Prod.snd), UUIDSetWFS u :=
        fun u hu => hwfs u (hperm.mem_iff.mp hu)
      have husidS : ((List.insertionSort setLe
            ((kv0 :: kv1 :: rest').map Prod.snd)).map
          (fun w => sidString w.SID)).Nodup :=
        (hperm.map (fun w => sidString w.SID)).nodup_iff.mpr husid0
      have hlen2 : 2 ≤ (List.insertionSort setLe
          ((kv0 :: kv1 :: rest').map Prod.snd)).length := by
        rw [hperm.length_eq, List.length_map]
        show 2 ≤ rest'.length + 1 + 1
        omega
      have hLne : (List.insertionSort setLe
          ((kv0 :: kv1 :: rest').map Prod.snd)).map UUIDSet.String ≠ [] := by
        intro h0
        have hl := congrArg List.length h0
        rw [List.length_map] at hl
        have hz : ([] : List (List Char)).length = 0 := rfl
        rw [hz] at hl
        omega
      have hsne : ∀ s ∈ (List.insertionSort setLe
          ((kv0 :: kv1 :: rest').map Prod.snd)).map UUIDSet.String, s ≠ [] := by
        intro s hs
        rw [List.mem_map] at hs
        obtain ⟨u, hu, rfl⟩ := hs
        exact uuidSetString_ne_nil u (hwfS u hu).1
      have hnocomma : ∀ s ∈ (List.insertionSort setLe
          ((kv0 :: kv1 :: rest').map Prod.snd)).map UUIDSet.String,
          ∀ c ∈ s, c ≠ ',' := by
        intro s hs c hc
        rw [List.mem_map] at hs
        obtain ⟨u, hu, rfl⟩ := hs
        exact (UUIDSetString_chars u (hwfS u hu) c hc).1
      have hstr : MysqlGTIDSet.String g
          = joinComma (sortStrings (((kv0 :: kv1 :: rest').map Prod.snd).map
              UUIDSet.String)) := by
        unfold MysqlGTIDSet.String
        rw [hgs]
        show joinComma (sortStrings ((kv0 :: kv1 :: rest').map
          (fun kv => UUIDSet.String kv.2))) = _
        rw [List.map_map]
        rfl
      have hidem : sortStrings ((List.insertionSort setLe
            ((kv0 :: kv1 :: rest').map Prod.snd)).map UUIDSet.String)
          = (List.insertionSort setLe ((kv0 :: kv1 :: rest').map Prod.snd)).map
            UUIDSet.String := by
        rw [map_insertionSort]
        show List.insertionSort strLe (sortStrings (((kv0 :: kv1 :: rest').map
          Prod.snd).map UUIDSet.String)) = _
        exact List.Sorted.insertionSort_eq (List.sorted_insertionSort strLe _)
      have hjne : joinComma ((List.insertionSort setLe
          ((kv0 :: kv1 :: rest').map Prod.snd)).map UUIDSet.String) ≠ [] :=
        joinComma_ne_nil _ hLne hsne
      have hloop : parseSetsLoop ((List.insertionSort setLe
            ((kv0 :: kv1 :: rest').map Prod.snd)).map UUIDSet.String) ⟨[]⟩
          = .ok ⟨[] ++ (List.insertionSort setLe ((kv0 :: kv1 :: rest').map
              Prod.snd)).map (fun w => (sidString w.SID, w))⟩ :=
        parseSetsLoop_ok _ ⟨[]⟩ hwfS husidS (fun v hv => rfl)
      rw [hstr, ← map_insertionSort]
      unfold ParseMysqlGTIDSet
      rw [if_neg hjne, splitChar_joinComma _ hLne hnocomma, hloop]
      show Except.ok (MysqlGTIDSet.String ⟨([] : List (List Char × UUIDSet))
          ++ (List.insertionSort setLe ((kv0 :: kv1 :: rest').map
            Prod.snd)).map (fun w => (sidString w.SID, w))⟩)
        = Except.ok (joinComma ((List.insertionSort setLe
            ((kv0 :: kv1 :: rest').map Prod.snd)).map UUIDSet.String))
      have hnilapp : ([] : List (List Char × UUIDSet))
          ++ (List.insertionSort setLe ((kv0 :: kv1 :: rest').map
            Prod.snd)).map (fun w => (sidString w.SID, w))
          = (List.insertionSort setLe ((kv0 :: kv1 :: rest').map
            Prod.snd)).map (fun w => (sidString w.SID, w)) := rfl
      rw [hnilapp, string_of_pairs _ hlen2, hidem]

/-- A two-set well-formed value exercising the amended C5 theorem. -/
def gC5w : MysqlGTIDSet :=
  ⟨[(sidString (List.replicate 16 0),
    ⟨List.replicate 16 0, [⟨1, 5⟩]⟩),
    (sidString (List.replicate 15 0 ++ [1]),
    ⟨List.replicate 15 0 ++ [1], [⟨3, 4⟩, ⟨7, 10⟩]⟩)]⟩

set_option maxRecDepth 8192 in
theorem claim_C5_witness :
    MysqlGTIDSetWFS gC5w
    ∧ (ParseMysqlGTIDSet (MysqlGTIDSet.String gC5w)).map MysqlGTIDSet.String
        = .ok (MysqlGTIDSet.String gC5w) :=
  ⟨by decide, claim_C5 gC5w (by decide)⟩


namespace replication

/-- replication/const.go `BINLOG_CHECKSUM_ALG_UNDEF`. -/
def BINLOG_CHECKSUM_ALG_UNDEF : Nat := 255

def checksumVersionSplitMysql : List Int := [5, 6, 1]

def checksumVersionProductMysql : Int :=
  (checksumVersionSplitMysql[0]! * 256 + checksumVersionSplitMysql[1]!) * 256
    + checksumVersionSplitMysql[2]!

def checksumVersionSplitMariaDB : List Int := [5, 3, 0]

def checksumVersionProductMariaDB : Int :=
  (checksumVersionSplitMariaDB[0]! * 256 + checksumVersionSplitMariaDB[1]!) * 256
    + checksumVersionSplitMariaDB[2]!

/-- Go `strconv.Atoi` with the error discarded, as the callers in
splitServerVersion use it: syntax errors yield 0, range errors yield the
clamped extreme (64-bit int). -/
def atoi (s : List Char) : Int :=
  match parseInt64 s with
  | some v => v
  | none =>
    match s with
    | '-' :: rest => if (digitsVal rest).isSome then -(2 ^ 63) else 0
    | '+' :: rest => if (digitsVal rest).isSome then 2 ^ 63 - 1 else 0
    | _ => if (digitsVal s).isSome then 2 ^ 63 - 1 else 0

/-- The index scan of `splitServerVersion` over the third dot-component:
`index` is set to the position of the first non-digit and the loop breaks;
when every character is a digit the loop never breaks and `index` keeps its
zero value.  (`unicode.IsNumber` restricted to the ASCII digits that occur
in version strings.) -/
def firstNonNumberIdx (l : List Char) : Nat :=
  match l.findIdx? (fun c => !c.isDigit) with
  | some k => k
  | none => 0

/-- Go `splitServerVersion` (replication/parser for `X.Y.Zsuffix`). -/
def splitServerVersion (server : List Char) : List Int :=
  let seps := splitChar '.' server
  if seps.length < 3 then [0, 0, 0]
  else
    let x := atoi (seps.headD [])
    let y := atoi ((seps.drop 1).headD [])
    let third := (seps.drop 2).headD []
    let z := atoi (third.take (firstNonNumberIdx third))
    [x, y, z]

/-- Go `calcVersionProduct`. -/
def calcVersionProduct (server : List Char) : Int :=
  let versionSplit := splitServerVersion server
  (versionSplit[0]! * 256 + versionSplit[1]!) * 256 + versionSplit[2]!

/-- `strings.ToLower` on the ASCII range. -/
def toLowerStr (s : List Char) : List Char :=
  s.map fun c => if 'A' ≤ c ∧ c ≤ 'Z' then Char.ofNat (c.toNat + 32) else c

/-- `strings.HasPrefix`. -/
def leadsWith : List Char → List Char → Bool
  | [], _ => true
  | _ :: _, [] => false
  | p :: ps, x :: xs => p = x && leadsWith ps xs

/-- `strings.Contains`. -/
def containsStr : List Char → List Char → Bool
  | s, pat =>
    if leadsWith pat s then true
    else
      match s with
      | [] => false
      | _ :: xs => containsStr xs pat

def readU16 (l : List Nat) : Nat :=
  match l with
  | b0 :: b1 :: _ => b0 + 256 * b1
  | _ => 0

def readU32 (l : List Nat) : Nat :=
  match l with
  | b0 :: b1 :: b2 :: b3 :: _ => b0 + 256 * b1 + 65536 * b2 + 16777216 * b3
  | _ => 0

structure FormatDescriptionEvent where
  Version : Nat
  ServerVersion : List Char
  CreateTimestamp : Nat
  EventHeaderLength : Nat
  EventTypeHeaderLengths : List Nat
  ChecksumAlgorithm : Nat
deriving DecidableEq, Repr

/-- Go `FormatDescriptionEvent.Decode`: fixed layout (u16 version, 50-byte
NUL-padded server-version field, u32 create timestamp, u8 header length
which must be 19), then — when the version product says checksums are
supported (MySQL, or MariaDB when the lowered version string contains
"mariadb") — the last 5 bytes are the checksum-algorithm byte plus the
4-byte checksum and are excluded from the header-length table; otherwise
the algorithm is UNDEF and the whole tail is the table.  Buffers too short
for the accesses Go performs (a panic there) are modelled as errors. -/
def FormatDescriptionEvent.Decode (data : List Nat) :
    Except (List Char) FormatDescriptionEvent :=
  if data.length < 57 then .error ("slice bounds out of range").toList
  else
    let version := readU16 data
    let raw := (data.drop 2).take 50
      ++ List.replicate (50 - ((data.drop 2).take 50).length) 0
    let createTs := readU32 (data.drop 52)
    let ehl := (data.drop 56).headD 0
    if ehl ≠ 19 then .error ("invalid event header length, must 19").toList
    else
      let sv : List Char :=
        match raw.findIdx? (fun b => b = 0) with
        | none => raw.map Char.ofNat
        | some k => (raw.take k).map Char.ofNat
      let checksumProduct :=
        if containsStr (toLowerStr sv) (("mariadb").toList) then
          checksumVersionProductMariaDB
        else checksumVersionProductMysql
      if calcVersionProduct sv ≥ checksumProduct then
        if data.length < 62 then .error ("slice bounds out of range").toList
        else
          .ok ⟨version, sv, createTs, ehl, (data.take (data.length - 5)).drop 57,
            (data.drop (data.length - 5)).headD 0⟩
      else
        .ok ⟨version, sv, createTs, ehl, data.drop 57, BINLOG_CHECKSUM_ALG_UNDEF⟩

/-- A FORMAT_DESCRIPTION_EVENT body whose server version field is the plain
string "5.6.1" (NUL padded to 50 bytes): binlog version 4, create
timestamp 0, event header length 19, a trailing 5-byte block whose first
byte (the checksum-algorithm byte, were it honoured) is 1 = CRC32. -/
def fdeData561 : List Nat :=
  [4, 0] ++ ([53, 46, 54, 46, 49] ++ List.replicate 45 0)
    ++ [0, 0, 0, 0] ++ [19] ++ [1, 222, 173, 190, 239]

/-- C6: evaluation of the code at the failing input.  The server version
string "5.6.1" is MySQL 5.6.1, so by the claim the trailing 5 bytes are
checksum data and `ChecksumAlgorithm` should come from `data[len-5]` (here
1 = CRC32).  But `splitServerVersion` leaves `index` at 0 when the third
dot-component is entirely numeric, parses `Z` from the empty prefix as 0,
and the product comparison sees 5.6.0 < 5.6.1: the code keeps the 5 bytes
in the header-length table and reports `UNDEF` (255). -/
theorem claim_C6 :
    splitServerVersion (("5.6.1").toList) = [5, 6, 0]
    ∧ calcVersionProduct (("5.6.1").toList) < checksumVersionProductMysql
    ∧ (FormatDescriptionEvent.Decode fdeData561).map
        (fun e => (e.ServerVersion, e.ChecksumAlgorithm, e.EventTypeHeaderLengths.length))
      = .ok (("5.6.1").toList, BINLOG_CHECKSUM_ALG_UNDEF, 5) := by
  refine ⟨by decide, by decide, ?_⟩
  decide

/-- JSON diff operation constants (replication/json_binary.go,
`JsonDiffOperationReplace` / `Insert` / `Remove`). -/
def JsonDiffOperationReplace : Nat := 0

def JsonDiffOperationInsert : Nat := 1

def JsonDiffOperationRemove : Nat := 2

/-- Go `JsonDiff` (Op, Path as raw bytes, Value as decoded text). -/
structure JsonDiff where
  Op : Nat
  Path : List Nat
  Value : List Char
deriving DecidableEq, Repr

/-- Outcome of `decodeJsonPartialBinary`: a diff, the `ErrCorruptedJSONDiff`
error, the wrapped error from the JSON-binary value decoder, or a Go panic
(out-of-bounds slice access). -/
inductive JsonPartialResult where
  | ok (d : JsonDiff)
  | corrupted
  | valueError
  | panicked
deriving DecidableEq, Repr

def varlenAux : List Nat → Nat → Nat → Nat → Option (Nat × Nat)
  | [], _, _, _ => none
  | b :: rest, pos, acc, maxCount =>
    if maxCount ≤ pos then none
    else
      if b < 128 then
        if 4294967295 < acc + (b % 128) * 128 ^ pos then none
        else some (acc + (b % 128) * 128 ^ pos, pos + 1)
      else varlenAux rest (pos + 1) (acc + (b % 128) * 128 ^ pos) maxCount

/-- Modelled from the spec: `mysql.LengthEncodedInt` lives in repo code that
is not under src/.  Spec §4.4 prescribes the continuation-bit
variable-length encoding for these lengths: each byte contributes 7 bits
little-endian, a set high bit means more bytes follow, at most 5 bytes,
and the total must fit in u32.  Returns the decoded value and the number
of bytes consumed; `none` covers the failure paths.  Bytes are < 256, so
`b % 128` is the Go `b & 0x7F`. -/
def varlenInt (data : List Nat) : Option (Nat × Nat) :=
  varlenAux data 0 0 (min 5 data.length)

/-- The body of `RowsEvent.decodeJsonPartialBinary` after the op-byte
switch: path length, path bytes, early return for `Remove`, else value
length and the JSON-binary value decoded to text through `dec` (the
receiver's `decodeJsonBinary`, over which the development is
parameterised). -/
def decodeJsonDiffBody (dec : List Nat → Except Unit (List Char))
    (op : Nat) (rest : List Nat) : JsonPartialResult :=
  match varlenInt rest with
  | none => .panicked
  | some (pathLength, n) =>
    if (rest.drop n).length < pathLength then .panicked
    else if op = JsonDiffOperationRemove then
      .ok ⟨op, (rest.drop n).take pathLength, []⟩
    else
      match varlenInt ((rest.drop n).drop pathLength) with
      | none => .panicked
      | some (valueLength, n2) =>
        if (((rest.drop n).drop pathLength).drop n2).length < valueLength then
          .panicked
        else
          match dec ((((rest.drop n).drop pathLength).drop n2).take valueLength) with
          | .error _ => .valueError
          | .ok v => .ok ⟨op, (rest.drop n).take pathLength, v⟩

/-- Go `RowsEvent.decodeJsonPartialBinary`: `data[0]` is the op byte; any
value outside {Replace, Insert, Remove} is `ErrCorruptedJSONDiff`. -/
def decodeJsonPartialBinary (dec : List Nat → Except Unit (List Char))
    (data : List Nat) : JsonPartialResult :=
  match data with
  | [] => .panicked
  | op :: rest =>
    if op = JsonDiffOperationReplace ∨ op = JsonDiffOperationInsert
        ∨ op = JsonDiffOperationRemove then
      decodeJsonDiffBody dec op rest
    else .corrupted

theorem decodeJsonDiffBody_ne_corrupted
    (dec : List Nat → Except Unit (List Char)) (op : Nat) (rest : List Nat) :
    decodeJsonDiffBody dec op rest ≠ JsonPartialResult.corrupted := by
  unfold decodeJsonDiffBody
  split
  · simp
  · split
    · simp
    · split
      · simp
      · split
        · simp
        · split
          · simp
          · split <;> simp

theorem decodeJsonDiffBody_remove
    (dec : List Nat → Except Unit (List Char)) (rest : List Nat) (d : JsonDiff)
    (h : decodeJsonDiffBody dec JsonDiffOperationRemove rest = .ok d) :
    d.Value = []
      ∧ ∀ dec', decodeJsonDiffBody dec' JsonDiffOperationRemove rest = .ok d := by
  unfold decodeJsonDiffBody at h ⊢
  split at h
  · exact absurd h (by simp)
  · rename_i plen n hv
    rw [if_pos rfl] at h
    split at h
    · exact absurd h (by simp)
    · rename_i h1
      injection h with h'
      subst h'
      refine ⟨rfl, fun dec' => ?_⟩
      rw [if_neg h1, if_pos rfl]

theorem decodeJsonDiffBody_value
    (dec : List Nat → Except Unit (List Char)) (op : Nat) (rest : List Nat)
    (d : JsonDiff) (hop : op ≠ JsonDiffOperationRemove)
    (h : decodeJsonDiffBody dec op rest = .ok d) :
    ∃ vb, dec vb = .ok d.Value := by
  unfold decodeJsonDiffBody at h
  split at h
  · exact absurd h (by simp)
  · rename_i plen n hv
    rw [if_neg hop] at h
    split at h
    · exact absurd h (by simp)
    · rename_i h1
      split at h
      · exact absurd h (by simp)
      · rename_i vlen n2 hv2
        split at h
        · exact absurd h (by simp)
        · rename_i h3
          split at h
          · exact absurd h (by simp)
          · rename_i v hd
            injection h with h'
            subst h'
            exact ⟨_, hd⟩

/-- C8: decodeJsonPartialBinary returns the CorruptedJsonDiff error exactly
when the leading op byte is outside {Replace=0, Insert=1, Remove=2}; a
Remove diff carries an empty Value and its decoding never consults the
JSON-binary value decoder; a successful Replace/Insert diff carries a
Value produced by the JSON-binary value decoder on some byte slice. -/
theorem claim_C8 (dec : List Nat → Except Unit (List Char)) (op : Nat)
    (rest : List Nat) :
    (decodeJsonPartialBinary dec (op :: rest) = JsonPartialResult.corrupted
      ↔ ¬(op = JsonDiffOperationReplace ∨ op = JsonDiffOperationInsert
          ∨ op = JsonDiffOperationRemove))
    ∧ (∀ d, decodeJsonPartialBinary dec (JsonDiffOperationRemove :: rest)
          = JsonPartialResult.ok d →
        d.Value = []
          ∧ ∀ dec', decodeJsonPartialBinary dec' (JsonDiffOperationRemove :: rest)
              = JsonPartialResult.ok d)
    ∧ ((op = JsonDiffOperationReplace ∨ op = JsonDiffOperationInsert) →
        ∀ d, decodeJsonPartialBinary dec (op :: rest) = JsonPartialResult.ok d →
          ∃ vb, dec vb = Except.ok d.Value) := by
  have hstep : ∀ (g : List Nat → Except Unit (List Char)) (b : Nat) (r : List Nat),
      decodeJsonPartialBinary g (b :: r)
        = if b = JsonDiffOperationReplace ∨ b = JsonDiffOperationInsert
              ∨ b = JsonDiffOperationRemove
          then decodeJsonDiffBody g b r else JsonPartialResult.corrupted :=
    fun _ _ _ => rfl
  refine ⟨?_, ?_, ?_⟩
  · rw [hstep]
    constructor
    · intro h hop
      rw [if_pos hop] at h
      exact decodeJsonDiffBody_ne_corrupted dec op rest h
    · intro hop
      rw [if_neg hop]
  · intro d h
    rw [hstep, if_pos (Or.inr (Or.inr rfl))] at h
    have hres := decodeJsonDiffBody_remove dec rest d h
    refine ⟨hres.1, fun dec' => ?_⟩
    rw [hstep, if_pos (Or.inr (Or.inr rfl))]
    exact hres.2 dec'
  · intro hop d h
    have hcond : op = JsonDiffOperationReplace ∨ op = JsonDiffOperationInsert
        ∨ op = JsonDiffOperationRemove := by
      rcases hop with h0 | h1
      · exact Or.inl h0
      · exact Or.inr (Or.inl h1)
    rw [hstep, if_pos hcond] at h
    have hne : op ≠ JsonDiffOperationRemove := by
      rcases hop with rfl | rfl <;> decide
    exact decodeJsonDiffBody_value dec op rest d hne h

theorem claim_C8_witness :
    decodeJsonPartialBinary (fun _ => Except.ok []) [7]
        = JsonPartialResult.corrupted
    ∧ decodeJsonPartialBinary (fun _ => Except.ok []) [2, 1, 65]
        = JsonPartialResult.ok ⟨2, [65], []⟩ := by
  constructor
  · exact (claim_C8 (fun _ => Except.ok []) 7 []).1.mpr (by decide)
  · exact ((claim_C8 (fun _ => Except.ok []) 2 [1, 65]).2.1 ⟨2, [65], []⟩
      (by decide)).2 (fun _ => Except.ok [])

/-- Modelled from the spec: the `serialization` package (Message, Field,
Unmarshal, GetFieldByName) is repo code not under src/.  Spec §4.5: a
message is a fixed ordered schema of named fields with type tags FixedInt
(raw bytes), VarInt (signed), VarUint (unsigned), String, and optional
fields carry a `Skipped` flag when absent from the wire.  A `SerField` is
one field of the message after `serialization.Unmarshal`; `Typ` stands for
the Go field `Type` (a keyword in Lean). -/
inductive SerFieldType where
  | intFixed (value : List Nat)
  | intVar (value : Int)
  | uintVar (value : Nat)
  | strVal (value : List Char)
  | unset
deriving DecidableEq, Repr

structure SerField where
  Name : List Char
  Typ : SerFieldType
  Skipped : Bool
deriving DecidableEq, Repr

/-- Modelled from the spec: `Message.GetFieldByName` returns the first
field of the schema with the given name, or an error when no field
matches. -/
def GetFieldByName : List SerField → List Char → Except Unit SerField
  | [], _ => .error ()
  | f :: fs, name => if f.Name = name then .ok f else GetFieldByName fs name

/-- The fields of Go `GTIDEvent` that `GtidTaggedLogEvent.Decode` fills. -/
structure GTIDEvent where
  CommitFlag : Nat
  SID : List Nat
  GNO : Int
  Tag : List Char
  LastCommitted : Int
  SequenceNumber : Int
  ImmediateCommitTimestamp : Nat
  OriginalCommitTimestamp : Nat
  ImmediateServerVersion : Nat
  OriginalServerVersion : Nat
  TransactionLength : Nat
deriving DecidableEq, Repr

/-- The `f, err := msg.GetFieldByName(name); if v, ok := f.Type.(*FieldIntFixed)`
step of the decode glue: field lookup plus type assertion, also returning
the field's Skipped flag. -/
def getIntFixed (msg : List SerField) (name : List Char) :
    Except (List Char) (List Nat × Bool) :=
  match GetFieldByName msg name with
  | .error _ => .error (("field not found: ").toList ++ name)
  | .ok f =>
    match f.Typ with
    | .intFixed v => .ok (v, f.Skipped)
    | _ => .error (("failed to get field ").toList ++ name)

def getIntVar (msg : List SerField) (name : List Char) :
    Except (List Char) (Int × Bool) :=
  match GetFieldByName msg name with
  | .error _ => .error (("field not found: ").toList ++ name)
  | .ok f =>
    match f.Typ with
    | .intVar v => .ok (v, f.Skipped)
    | _ => .error (("failed to get field ").toList ++ name)

def getUintVar (msg : List SerField) (name : List Char) :
    Except (List Char) (Nat × Bool) :=
  match GetFieldByName msg name with
  | .error _ => .error (("field not found: ").toList ++ name)
  | .ok f =>
    match f.Typ with
    | .uintVar v => .ok (v, f.Skipped)
    | _ => .error (("failed to get field ").toList ++ name)

def getString (msg : List SerField) (name : List Char) :
    Except (List Char) (List Char × Bool) :=
  match GetFieldByName msg name with
  | .error _ => .error (("field not found: ").toList ++ name)
  | .ok f =>
    match f.Typ with
    | .strVal v => .ok (v, f.Skipped)
    | _ => .error (("failed to get field ").toList ++ name)

/-- Go `GtidTaggedLogEvent.Decode` after `serialization.Unmarshal`
succeeded: the chain of GetFieldByName lookups and type assertions from
src (part_002), over the unmarshalled message.  `v.Value[0]` on an empty
gtid_flags value panics in Go and is an error here; `uint32(v.Value)` is
the mod-2^32 truncation; a Skipped original_commit_timestamp defaults to
the immediate commit timestamp and a Skipped original_server_version to
the (truncated) immediate server version, exactly as in the source. -/
def GtidTaggedLogEvent.Decode (msg : List SerField) :
    Except (List Char) GTIDEvent :=
  match getIntFixed msg (("gtid_flags").toList) with
  | .error e => .error e
  | .ok (flags, _) =>
    match flags with
    | [] => .error (("panic: index out of range").toList)
    | flag0 :: _ =>
      match getIntFixed msg (("uuid").toList) with
      | .error e => .error e
      | .ok (sid, _) =>
        match getIntVar msg (("gno").toList) with
        | .error e => .error e
        | .ok (gno, _) =>
          match getString msg (("tag").toList) with
          | .error e => .error e
          | .ok (tag, _) =>
            match getIntVar msg (("last_committed").toList) with
            | .error e => .error e
            | .ok (lastCommitted, _) =>
              match getIntVar msg (("sequence_number").toList) with
              | .error e => .error e
              | .ok (seqNumber, _) =>
                match getUintVar msg (("immediate_commit_timestamp").toList) with
                | .error e => .error e
                | .ok (ict, _) =>
                  match getUintVar msg (("original_commit_timestamp").toList) with
                  | .error e => .error e
                  | .ok (octv, octSkipped) =>
                    match getUintVar msg (("immediate_server_version").toList) with
                    | .error e => .error e
                    | .ok (isv, _) =>
                      match getUintVar msg (("original_server_version").toList) with
                      | .error e => .error e
                      | .ok (osv, osvSkipped) =>
                        match getUintVar msg (("transaction_length").toList) with
                        | .error e => .error e
                        | .ok (tl, _) =>
                          .ok ⟨flag0, sid, gno, tag, lastCommitted, seqNumber,
                            ict,
                            if octSkipped then ict else octv,
                            isv % 4294967296,
                            if osvSkipped then isv % 4294967296
                              else osv % 4294967296,
                            tl⟩

theorem getUintVar_spec {msg : List SerField} {name : List Char} {v : Nat}
    {sk : Bool} (h : getUintVar msg name = .ok (v, sk)) :
    ∃ f, GetFieldByName msg name = .ok f ∧ f.Skipped = sk := by
  unfold getUintVar at h
  split at h
  · exact absurd h (by simp)
  rename_i f hf
  split at h
  · injection h with h'
    exact ⟨f, hf, congrArg Prod.snd h'⟩
  all_goals exact absurd h (by simp)

/-- C9: when GtidTaggedLogEvent.Decode succeeds on a message whose optional
original_commit_timestamp field is skipped on the wire, the decoded
event's OriginalCommitTimestamp equals its ImmediateCommitTimestamp;
likewise a skipped original_server_version yields OriginalServerVersion
equal to ImmediateServerVersion. -/
theorem claim_C9 (msg : List SerField) (e : GTIDEvent)
    (hdec : GtidTaggedLogEvent.Decode msg = .ok e)
    (hoct : ∀ f, GetFieldByName msg (("original_commit_timestamp").toList) = .ok f →
      f.Skipped = true)
    (hosv : ∀ f, GetFieldByName msg (("original_server_version").toList) = .ok f →
      f.Skipped = true) :
    e.OriginalCommitTimestamp = e.ImmediateCommitTimestamp
      ∧ e.OriginalServerVersion = e.ImmediateServerVersion := by
  unfold GtidTaggedLogEvent.Decode at hdec
  split at hdec
  · exact absurd hdec (by simp)
  rename_i flags sk1 heq1
  split at hdec
  · exact absurd hdec (by simp)
  rename_i flag0 ftail
  split at hdec
  · exact absurd hdec (by simp)
  rename_i sid sk2 heq2
  split at hdec
  · exact absurd hdec (by simp)
  rename_i gno sk3 heq3
  split at hdec
  · exact absurd hdec (by simp)
  rename_i tag sk4 heq4
  split at hdec
  · exact absurd hdec (by simp)
  rename_i lastCommitted sk5 heq5
  split at hdec
  · exact absurd hdec (by simp)
  rename_i seqNumber sk6 heq6
  split at hdec
  · exact absurd hdec (by simp)
  rename_i ict sk7 heq7
  split at hdec
  · exact absurd hdec (by simp)
  rename_i octv octSk heqOct
  split at hdec
  · exact absurd hdec (by simp)
  rename_i isv sk9 heq9
  split at hdec
  · exact absurd hdec (by simp)
  rename_i osv osvSk heqOsv
  split at hdec
  · exact absurd hdec (by simp)
  rename_i tl sk11 heq11
  injection hdec with h'
  subst h'
  obtain ⟨fo, hfo, hfosk⟩ := getUintVar_spec heqOct
  have hoctTrue := hoct fo hfo
  rw [hfosk] at hoctTrue
  obtain ⟨go, hgo, hgosk⟩ := getUintVar_spec heqOsv
  have hosvTrue := hosv go hgo
  rw [hgosk] at hosvTrue
  constructor
  · simp [hoctTrue]
  · simp [hosvTrue]

def msgC9 : List SerField :=
  [⟨("gtid_flags").toList, .intFixed [1], false⟩,
   ⟨("uuid").toList, .intFixed (List.replicate 16 0), false⟩,
   ⟨("gno").toList, .intVar 1, false⟩,
   ⟨("tag").toList, .strVal (("t").toList), false⟩,
   ⟨("last_committed").toList, .intVar 0, false⟩,
   ⟨("sequence_number").toList, .intVar 1, false⟩,
   ⟨("immediate_commit_timestamp").toList, .uintVar 1000, false⟩,
   ⟨("original_commit_timestamp").toList, .uintVar 0, true⟩,
   ⟨("transaction_length").toList, .uintVar 5, false⟩,
   ⟨("immediate_server_version").toList, .uintVar 80023, false⟩,
   ⟨("original_server_version").toList, .uintVar 0, true⟩]

def eC9 : GTIDEvent :=
  ⟨1, List.replicate 16 0, 1, ("t").toList, 0, 1, 1000, 1000, 80023, 80023, 5⟩

theorem claim_C9_witness :
    eC9.OriginalCommitTimestamp = eC9.ImmediateCommitTimestamp
      ∧ eC9.OriginalServerVersion = eC9.ImmediateServerVersion :=
  claim_C9 msgC9 eC9 (by decide)
    (fun f hf => by
      have h' : Except.ok (⟨("original_commit_timestamp").toList,
          .uintVar 0, true⟩ : SerField) = Except.ok f := hf
      injection h' with h''
      rw [← h''])
    (fun f hf => by
      have h' : Except.ok (⟨("original_server_version").toList,
          .uintVar 0, true⟩ : SerField) = Except.ok f := hf
      injection h' with h''
      rw [← h''])

end replication

namespace client

/-- The limit clamping performed by `NewPoolWithOptions` on the requested
`minAlive`, `maxAlive`, `maxIdle` option values (client/pool.go):
three sequential corrections before the limits are stored in the `Pool`. -/
def clampPoolLimits (minAlive maxAlive maxIdle : Int) : Int × Int × Int :=
  let minAlive' := if minAlive > maxAlive then maxAlive else minAlive
  let maxIdle' := if maxIdle > maxAlive then maxAlive else maxIdle
  let maxIdle'' := if maxIdle' ≤ minAlive' then minAlive' else maxIdle'
  (minAlive', maxAlive, maxIdle'')

/-- C7: after pool construction the stored limits satisfy
`minAlive ≤ maxAlive`, `maxIdle ≤ maxAlive` and `maxIdle ≥ minAlive`, for
every combination of requested option values. -/
theorem claim_C7 (minAlive maxAlive maxIdle : Int) :
    (clampPoolLimits minAlive maxAlive maxIdle).1
      ≤ (clampPoolLimits minAlive maxAlive maxIdle).2.1
    ∧ (clampPoolLimits minAlive maxAlive maxIdle).2.2
      ≤ (clampPoolLimits minAlive maxAlive maxIdle).2.1
    ∧ (clampPoolLimits minAlive maxAlive maxIdle).2.2
      ≥ (clampPoolLimits minAlive maxAlive maxIdle).1 := by
  unfold clampPoolLimits
  dsimp only
  split_ifs <;> omega

end client

end mysql
